import Mathlib

/-!
Verification of the oxbury_pathfind repository (src/pathfind.py).

The Python module implements a 2D grid pathfinder: a Map class holding a
parsed grid together with a start coordinate p and an end coordinate q,
coordinate validation, passability and neighbour queries, a breadth-first
search (get_shortest_path) and an A-star search (get_shortest_path_astar),
and a top-level entry point (pathfind).

This file shallowly embeds those definitions and proves the frozen claims
about them.  Python integers are modelled as Int (coordinates) and Nat
(step counts, priorities); raised exceptions are modelled as explicit
result constructors; the unbounded while loops are modelled with an
explicit fuel parameter together with theorems showing that the chosen
fuel is always sufficient and that the result is fuel-independent beyond
that point.
-/

namespace Oxbury

/-- Coordinate namedtuple from pathfind.py: Coord = namedtuple("Coord", "x y").
Python ints are modelled as Int (the code is exercised with negative
coordinates, e.g. Coord(-1, 10)). Equality is by value, as for namedtuples. -/
structure Coord where
  x : Int
  y : Int
deriving DecidableEq

/-- The bounds violations produced by Map._validate_coord.  The Python code
collects human-readable message strings; here each message is modelled as a
tagged value carrying the same data that appears in the corresponding
f-string:
yNeg for "y coordinate must not be negative",
xNeg for "x coordinate must not be negative",
yMax v for "y coordinate must be maximum {y_extent-1}" (v = y_extent-1),
xRange line ext for
"x coordinate out of range for line {coord.y}. Must be maximum {x_extent}". -/
inductive BoundsError where
  | yNeg : BoundsError
  | xNeg : BoundsError
  | yMax : Int → BoundsError
  | xRange : Int → Nat → BoundsError
deriving DecidableEq

/-- The Map class: array is the parsed grid (a list of rows, each row a list
of whitespace-separated string tokens), p the start coordinate, q the end
coordinate.  Python stores y_extent = len(array) as an attribute; it is
recovered here by Map.y_extent below. -/
structure Map where
  array : List (List String)
  p : Coord
  q : Coord
deriving DecidableEq

/-- Attribute y_extent of Map.__init__: self.y_extent = len(self.array). -/
def Map.y_extent (m : Map) : Nat := m.array.length

/-- Map._validate_coord, returning the list of collected violations instead
of raising; the Python method raises OutOfBoundsError exactly when this list
is nonempty.  The checks and their order mirror the source: y negative,
x negative, y at or beyond y_extent, and, only when y passed both of its
checks (the y_valid flag), x at or beyond the length of row y. -/
def Map.validate_coord (m : Map) (c : Coord) : List BoundsError :=
  (if c.y < 0 then [BoundsError.yNeg] else []) ++
  (if c.x < 0 then [BoundsError.xNeg] else []) ++
  (if (m.y_extent : Int) ≤ c.y then [BoundsError.yMax ((m.y_extent : Int) - 1)] else []) ++
  (if 0 ≤ c.y ∧ c.y < (m.y_extent : Int) ∧
      ((m.array.getD c.y.toNat []).length : Int) ≤ c.x then
    [BoundsError.xRange c.y (m.array.getD c.y.toNat []).length]
  else [])

/-- The tile self.array[coord.y][coord.x].  Callers only read it after
validation succeeded, so both indices are in range; getD supplies an
arbitrary default elsewhere. -/
def Map.tileAt (m : Map) (c : Coord) : String :=
  (m.array.getD c.y.toNat []).getD c.x.toNat ""

/-- Map._is_passable: validation failure (the try/except OutOfBoundsError)
yields False, otherwise the tile is compared against the blocked marker "#". -/
def Map.is_passable (m : Map) (c : Coord) : Bool :=
  if m.validate_coord c = [] then m.tileAt c != "#" else false

/-- The four orthogonally adjacent candidate coordinates, in the construction
order of _get_neighbours: (x-1,y), (x+1,y), (x,y-1), (x,y+1). -/
def candidateNeighbours (c : Coord) : List Coord :=
  [⟨c.x - 1, c.y⟩, ⟨c.x + 1, c.y⟩, ⟨c.x, c.y - 1⟩, ⟨c.x, c.y + 1⟩]

/-- Map._get_neighbours: the candidate coordinates filtered to the passable
ones.  The Python generator is finite and restartable, so a list is a
faithful model. -/
def Map.get_neighbours (m : Map) (c : Coord) : List Coord :=
  (candidateNeighbours c).filter (fun n => m.is_passable n)

/-- Result of a search: found n models a normal return of n; noPath models
raising NoPossiblePath; keyErr models a KeyError from a failed
distance[node] dictionary lookup in the A-star code; outOfFuel is the
artefact of the fuel-based modelling of the while loops (theorems below show
the chosen fuel never runs out). -/
inductive SearchResult where
  | found : Nat → SearchResult
  | noPath : SearchResult
  | keyErr : SearchResult
  | outOfFuel : SearchResult
deriving DecidableEq

/-- Total number of tiles of the grid, used to size the fuel. -/
def Map.totalCells (m : Map) : Nat := (m.array.map List.length).sum

/-- Fuel for the BFS loop; theorems below show it cannot be exhausted. -/
def Map.bfsFuel (m : Map) : Nat := 2 * m.totalCells + 5

/-- One while-loop iteration structure of get_shortest_path.  The queue holds
(coord, steps) pairs; visited is the set of coordinates ever enqueued
(modelled as a list used only through membership).  Per iteration the front
entry is dequeued; if any passable neighbour equals q the search returns
steps+1 (the Python loop returns upon first encountering q among the
neighbours; neighbours already appended in the same iteration no longer
matter for the returned value); otherwise the not-yet-visited neighbours are
appended to the queue and marked visited.  The four candidate coordinates
are pairwise distinct, so marking visited one at a time while iterating, as
Python does, coincides with filtering against the visited set at the start
of the iteration. -/
def bfsAux (m : Map) : Nat → List (Coord × Nat) → List Coord → SearchResult
  | 0, _, _ => SearchResult.outOfFuel
  | _ + 1, [], _ => SearchResult.noPath
  | fuel + 1, (c, steps) :: rest, visited =>
    let ns := m.get_neighbours c
    if m.q ∈ ns then SearchResult.found (steps + 1)
    else
      let fresh := ns.filter (fun v => decide (v ∉ visited))
      bfsAux m fuel (rest ++ fresh.map (fun v => (v, steps + 1))) (visited ++ fresh)

/-- Map.get_shortest_path: returns 0 immediately when p = q, otherwise runs
the BFS loop seeded with queue deque([(p, 0)]) and visited set([p]). -/
def Map.get_shortest_path (m : Map) : SearchResult :=
  if m.p = m.q then SearchResult.found 0
  else bfsAux m m.bfsFuel [(m.p, 0)] [m.p]

/-- Map._heuristic: the Manhattan distance abs(a.x-b.x) + abs(a.y-b.y). -/
def Map.heuristic (a b : Coord) : Nat :=
  (a.x - b.x).natAbs + (a.y - b.y).natAbs

/-- Modelled from the spec: the repository imports PriorityQueue from
src/priority_queue.py, which is not part of the sources available here.
Following §4.4 of the specification, add(item, priority) inserts the pair,
duplicates of the same item under different priorities coexisting.  The
spec leaves the default priority of the initial add(self.p) open, remarking
it is irrelevant because the first pop has a single-element queue; the
seeding call below uses 0. -/
def pqAdd (f : List (Coord × Nat)) (item : Coord) (priority : Nat) :
    List (Coord × Nat) :=
  f ++ [(item, priority)]

/-- Modelled from the spec: pop() removes and returns an entry of minimal
priority.  §4.4 leaves the tie-break order unspecified but requires it to be
deterministic; this model returns the earliest-inserted entry among those of
minimal priority, one of the orders the spec explicitly allows.  none is
returned exactly on the empty queue, which the search loop never pops. -/
def pqPop : List (Coord × Nat) → Option ((Coord × Nat) × List (Coord × Nat))
  | [] => none
  | e :: rest =>
    match pqPop rest with
    | none => some (e, [])
    | some (e', rest') =>
      if e.2 ≤ e'.2 then some (e, rest) else some (e', e :: rest')

/-- The successor loop of get_shortest_path_astar.  For each passable
neighbour s of the expanded node (in order) the pair is first pushed onto
the frontier with priority distance[node] + 1 + heuristic(s, q), then
distance[s] is set to distance[node] + 1 if s has no recorded distance or
the new value strictly improves it.  distance[node] is read once and passed
in as dn: the successors of node never include node itself, so the repeated
dictionary lookup in the Python loop always yields the same value. -/
def astarExpand (m : Map) (dn : Nat) :
    List Coord → List (Coord × Nat) → (Coord → Option Nat) →
    List (Coord × Nat) × (Coord → Option Nat)
  | [], f, dist => (f, dist)
  | s :: ss, f, dist =>
    let f' := pqAdd f s (dn + 1 + Map.heuristic s m.q)
    let dist' := match dist s with
      | none => fun c => if c = s then some (dn + 1) else dist c
      | some ds =>
        if dn + 1 < ds then (fun c => if c = s then some (dn + 1) else dist c)
        else dist
    astarExpand m dn ss f' dist'

/-- The distance value recorded for a successor once the successor loop has
processed it: dn + 1 if it had no recorded distance or dn + 1 strictly
improves it, the old value otherwise. -/
def updVal (dn : Nat) : Option Nat → Nat
  | none => dn + 1
  | some ds => if dn + 1 < ds then dn + 1 else ds

/-- Fuel for the A-star loop; theorems below show it cannot be exhausted. -/
def Map.astarFuel (m : Map) : Nat := 5 * m.totalCells + 10

/-- One while-loop iteration structure of get_shortest_path_astar: pop a
minimal-priority node; skip it if already visited; if it is q return
distance[q]; otherwise mark it visited and run the successor loop.  A
failing distance dictionary lookup is surfaced as keyErr. -/
def astarAux (m : Map) :
    Nat → List (Coord × Nat) → (Coord → Option Nat) → List Coord →
    SearchResult
  | 0, _, _, _ => SearchResult.outOfFuel
  | fuel + 1, f, dist, visited =>
    match pqPop f with
    | none => SearchResult.noPath
    | some ((node, _), f') =>
      if node ∈ visited then astarAux m fuel f' dist visited
      else if node = m.q then
        match dist node with
        | none => SearchResult.keyErr
        | some dn => SearchResult.found dn
      else
        match dist node with
        | none => SearchResult.keyErr
        | some dn =>
          let fd := astarExpand m dn (m.get_neighbours node) f' dist
          astarAux m fuel fd.1 fd.2 (node :: visited)

/-- The initial distance dictionary {p: 0} of get_shortest_path_astar. -/
def Map.dist0 (m : Map) : Coord → Option Nat :=
  fun c => if c = m.p then some 0 else none

/-- Map.get_shortest_path_astar: visited starts empty, distance is {p: 0},
and the frontier is seeded with p. -/
def Map.get_shortest_path_astar (m : Map) : SearchResult :=
  astarAux m m.astarFuel (pqAdd [] m.p 0) m.dist0 []

/-- Splitting a character list at every newline, keeping empty pieces:
the behaviour of Python str.split("\n") used on the raw map string. -/
def splitLines : List Char → List (List Char)
  | [] => [[]]
  | c :: cs =>
    if c = '\n' then [] :: splitLines cs
    else
      match splitLines cs with
      | [] => [[c]]
      | l :: ls => (c :: l) :: ls

/-- Helper for splitWS, accumulating the current token in reverse. -/
def splitWSAux : List Char → List Char → List (List Char)
  | [], acc => if acc = [] then [] else [acc.reverse]
  | c :: cs, acc =>
    if c.isWhitespace then
      (if acc = [] then splitWSAux cs [] else acc.reverse :: splitWSAux cs [])
    else splitWSAux cs (c :: acc)

/-- Splitting a row at runs of whitespace, discarding empty tokens: the
behaviour of Python str.split() with no argument, used on each row. -/
def splitWS (cs : List Char) : List (List Char) := splitWSAux cs []

/-- The row parsing of Map.__init__:
list(map(lambda x: x.split(), array.split("\n"))). -/
def parseMap (s : String) : List (List String) :=
  (splitLines s.data).map (fun line => (splitWS line).map (fun t => ⟨t⟩))

/-- Map.__init__: parse the raw string, then validate p and q in that order;
the first nonempty violation list raises OutOfBoundsError, modelled as the
error branch. -/
def mkMap (array : String) (p q : Coord) : Except (List BoundsError) Map :=
  let m : Map := ⟨parseMap array, p, q⟩
  match m.validate_coord p with
  | [] =>
    match m.validate_coord q with
    | [] => Except.ok m
    | e => Except.error e
  | e => Except.error e

instance {ε α : Type} [DecidableEq ε] [DecidableEq α] : DecidableEq (Except ε α)
  | Except.ok a, Except.ok b => decidable_of_iff (a = b) (by simp)
  | Except.ok _, Except.error _ => isFalse (by simp)
  | Except.error _, Except.ok _ => isFalse (by simp)
  | Except.error a, Except.error b => decidable_of_iff (a = b) (by simp)

/-- Outcome of the top-level pathfind function: a step count, a
NoPossiblePath exception, an OutOfBoundsError carrying the collected
violations, or the internal markers inherited from SearchResult. -/
inductive PathfindResult where
  | steps : Nat → PathfindResult
  | noPossiblePath : PathfindResult
  | outOfBounds : List BoundsError → PathfindResult
  | internalErr : PathfindResult
  | fuelOut : PathfindResult
deriving DecidableEq

/-- pathfind(array, p, q): construct the Map and run the A-star search. -/
def pathfind (array : String) (p q : Coord) : PathfindResult :=
  match mkMap array p q with
  | Except.error e => PathfindResult.outOfBounds e
  | Except.ok m =>
    match m.get_shortest_path_astar with
    | SearchResult.found n => PathfindResult.steps n
    | SearchResult.noPath => PathfindResult.noPossiblePath
    | SearchResult.keyErr => PathfindResult.internalErr
    | SearchResult.outOfFuel => PathfindResult.fuelOut

/-- Reference semantics, written from the specification's movement rules:
a walk of n unit-cost 4-directional moves from c to e, every move entering
a passable cell (the cell moved into must be passable; the cell the walk
starts on is the cell the mover already occupies). -/
inductive Reaches (m : Map) : Coord → Coord → Nat → Prop
  | refl (c : Coord) : Reaches m c c 0
  | step {c d e : Coord} {n : Nat} :
      d ∈ m.get_neighbours c → Reaches m d e n → Reaches m c e (n + 1)

/-- Specification-side definition of the true shortest path length between
p and q: n is realised by some walk and no walk is shorter. -/
def SpecShortestPathLen (m : Map) (n : Nat) : Prop :=
  Reaches m m.p m.q n ∧ ∀ k, Reaches m m.p m.q k → n ≤ k

/-- The in-bounds cells of the grid, as a finite set, used to bound the
search fuel. -/
def gridCells (m : Map) : Finset Coord :=
  (Finset.range m.array.length).biUnion
    (fun y => (Finset.range (m.array.getD y []).length).image
      (fun x : Nat => (⟨(x : Int), (y : Int)⟩ : Coord)))

/-- The finite universe every search state stays inside: the in-bounds
cells together with the start coordinate. -/
def searchUniverse (m : Map) : Finset Coord := insert m.p (gridCells m)

/-- The disjunction of the four bounds rules checked by _validate_coord:
negative x, negative y, y at or beyond the row count, or, for an in-range
y, x at or beyond the length of row y.  The formula mentions no tile
content: validation is a pure bounds check. -/
def violatesBounds (m : Map) (c : Coord) : Prop :=
  c.x < 0 ∨ c.y < 0 ∨ (m.y_extent : Int) ≤ c.y ∨
    (0 ≤ c.y ∧ c.y < (m.y_extent : Int) ∧
      ((m.array.getD c.y.toNat []).length : Int) ≤ c.x)

/-- Loop invariant of the A-star search in get_shortest_path_astar.
Recorded distances are realised by walks; every frontier entry has a
recorded distance and (except for the seeded start entry) a priority at
least that distance plus the heuristic; visited coordinates have optimal
recorded distances; an unvisited passable neighbour of a visited
coordinate has a live frontier entry whose priority is bounded through the
visited coordinate's distance; while p is unvisited it keeps a frontier
entry of priority at most its heuristic; q is never visited; frontier
items are the start or passable. -/
structure AstarInv (m : Map) (f : List (Coord × Nat))
    (dist : Coord → Option Nat) (visited : List Coord) : Prop where
  distReach : ∀ c n, dist c = some n → Reaches m m.p c n
  entryDist : ∀ e ∈ f, ∃ n, dist e.1 = some n ∧
    (n + Map.heuristic e.1 m.q ≤ e.2 ∨ (e.1 = m.p ∧ n = 0))
  visitedOpt : ∀ v ∈ visited, ∃ n, dist v = some n ∧
    ∀ k, Reaches m m.p v k → n ≤ k
  visitedClosed : ∀ v ∈ visited, ∀ d ∈ m.get_neighbours v, d ∉ visited →
    ∃ pr, (d, pr) ∈ f ∧ ∃ nv, dist v = some nv ∧
      pr ≤ nv + 1 + Map.heuristic d m.q
  pCovered : m.p ∉ visited →
    ∃ pr, (m.p, pr) ∈ f ∧ pr ≤ Map.heuristic m.p m.q
  qNotVisited : m.q ∉ visited
  fUniv : ∀ e ∈ f, e.1 = m.p ∨ m.is_passable e.1 = true

/-- Loop invariant of the BFS in get_shortest_path.  Queue entries carry
their exact (and minimal) discovery distance from p, queue steps are
nondecreasing and span at most two consecutive levels, q has never been
marked visited, and a visited coordinate that no longer sits in the queue
has had all its passable neighbours marked visited. -/
structure BfsInv (m : Map) (queue : List (Coord × Nat))
    (visited : List Coord) : Prop where
  entriesReach : ∀ e ∈ queue, Reaches m m.p e.1 e.2
  entriesMin : ∀ e ∈ queue, ∀ k, Reaches m m.p e.1 k → e.2 ≤ k
  entriesVisited : ∀ e ∈ queue, e.1 ∈ visited
  stepsPairwise :
    queue.Pairwise (fun a b : Coord × Nat => a.2 ≤ b.2 ∧ b.2 ≤ a.2 + 1)
  qNotVisited : m.q ∉ visited
  pVisited : m.p ∈ visited
  closed : ∀ v ∈ visited, (∀ e ∈ queue, e.1 ≠ v) →
    ∀ d ∈ m.get_neighbours v, d ∈ visited
  visitedUniv : ∀ v ∈ visited, v = m.p ∨ m.is_passable v = true

/-! Basic characterisations of validation, passability and neighbours. -/

/-- A coordinate validates cleanly exactly when it satisfies the four bounds
rules: x nonnegative, y nonnegative, y below the row count, x below the
length of its specific row. -/
theorem validate_nil_iff (m : Map) (c : Coord) :
    m.validate_coord c = [] ↔
      0 ≤ c.x ∧ 0 ≤ c.y ∧ c.y < (m.y_extent : Int) ∧
        c.x < ((m.array.getD c.y.toNat []).length : Int) := by
  unfold Map.validate_coord
  split_ifs with h1 h2 h3 h4 <;> simp_all

theorem mem_gridCells (m : Map) (c : Coord) :
    c ∈ gridCells m ↔
      0 ≤ c.x ∧ 0 ≤ c.y ∧ c.y < (m.array.length : Int) ∧
        c.x < ((m.array.getD c.y.toNat []).length : Int) := by
  simp only [gridCells, Finset.mem_biUnion, Finset.mem_range, Finset.mem_image]
  constructor
  · rintro ⟨y, hy, x, hx, rfl⟩
    simp only [Int.toNat_natCast]
    refine ⟨by positivity, by positivity, by exact_mod_cast hy, by exact_mod_cast hx⟩
  · rintro ⟨h1, h2, h3, h4⟩
    refine ⟨c.y.toNat, by omega, c.x.toNat, by omega, ?_⟩
    cases c
    simp only [Coord.mk.injEq]
    constructor <;> simp_all

theorem validate_nil_mem_gridCells (m : Map) (c : Coord)
    (h : m.validate_coord c = []) : c ∈ gridCells m := by
  rw [mem_gridCells]
  rw [validate_nil_iff] at h
  exact h

theorem passable_mem_gridCells (m : Map) (c : Coord)
    (h : m.is_passable c = true) : c ∈ gridCells m := by
  unfold Map.is_passable at h
  split_ifs at h with hv
  exact validate_nil_mem_gridCells m c hv

theorem card_gridCells_le (m : Map) : (gridCells m).card ≤ m.totalCells := by
  classical
  calc (gridCells m).card
      ≤ ∑ y ∈ Finset.range m.array.length,
          ((Finset.range (m.array.getD y []).length).image
            (fun x : Nat => (⟨(x : Int), (y : Int)⟩ : Coord))).card :=
        Finset.card_biUnion_le
    _ ≤ ∑ y ∈ Finset.range m.array.length, (m.array.getD y []).length := by
        refine Finset.sum_le_sum (fun y _ => ?_)
        calc ((Finset.range (m.array.getD y []).length).image
                (fun x : Nat => (⟨(x : Int), (y : Int)⟩ : Coord))).card
            ≤ (Finset.range (m.array.getD y []).length).card :=
              Finset.card_image_le
          _ = (m.array.getD y []).length := Finset.card_range _
    _ = m.totalCells := by
        unfold Map.totalCells
        induction m.array with
        | nil => simp
        | cons a t ih =>
          simp only [List.length_cons, List.map_cons, List.sum_cons]
          rw [Finset.sum_range_succ']
          simp only [List.getD_cons_succ, List.getD_cons_zero]
          rw [ih]
          omega

theorem card_searchUniverse_le (m : Map) :
    (searchUniverse m).card ≤ m.totalCells + 1 := by
  calc (searchUniverse m).card ≤ (gridCells m).card + 1 :=
        Finset.card_insert_le _ _
    _ ≤ m.totalCells + 1 := by have := card_gridCells_le m; omega

theorem mem_candidates (c d : Coord) :
    d ∈ candidateNeighbours c ↔
      d = ⟨c.x - 1, c.y⟩ ∨ d = ⟨c.x + 1, c.y⟩ ∨
        d = ⟨c.x, c.y - 1⟩ ∨ d = ⟨c.x, c.y + 1⟩ := by
  simp [candidateNeighbours]

theorem candidates_symm (c d : Coord) :
    d ∈ candidateNeighbours c ↔ c ∈ candidateNeighbours d := by
  cases c; cases d
  simp only [mem_candidates, Coord.mk.injEq]
  omega

theorem self_not_mem_candidates (c : Coord) : c ∉ candidateNeighbours c := by
  cases c
  simp only [mem_candidates, Coord.mk.injEq]
  omega

theorem candidates_nodup (c : Coord) : (candidateNeighbours c).Nodup := by
  cases c
  simp only [candidateNeighbours, List.nodup_cons, List.mem_cons,
    List.mem_singleton, List.not_mem_nil, Coord.mk.injEq, List.nodup_nil,
    not_or, or_false, and_true, true_and, not_false_eq_true, not_and]
  omega

theorem mem_neighbours (m : Map) (c d : Coord) :
    d ∈ m.get_neighbours c ↔
      d ∈ candidateNeighbours c ∧ m.is_passable d = true := by
  simp [Map.get_neighbours, List.mem_filter]

theorem neighbours_passable (m : Map) {c d : Coord}
    (h : d ∈ m.get_neighbours c) : m.is_passable d = true :=
  ((mem_neighbours m c d).1 h).2

theorem neighbours_nodup (m : Map) (c : Coord) : (m.get_neighbours c).Nodup :=
  (candidates_nodup c).filter _

theorem neighbours_length_le (m : Map) (c : Coord) :
    (m.get_neighbours c).length ≤ 4 :=
  le_trans (List.length_filter_le _ _) (by simp [candidateNeighbours])

theorem self_not_mem_neighbours (m : Map) (c : Coord) :
    c ∉ m.get_neighbours c := by
  intro h
  exact self_not_mem_candidates c ((mem_neighbours m c c).1 h).1

theorem neighbours_symm (m : Map) {c d : Coord}
    (h : d ∈ m.get_neighbours c) (hc : m.is_passable c = true) :
    c ∈ m.get_neighbours d := by
  rw [mem_neighbours] at h ⊢
  exact ⟨(candidates_symm c d).1 h.1, hc⟩

theorem get_neighbours_congr {m m' : Map} (h : m.array = m'.array)
    (c : Coord) : m.get_neighbours c = m'.get_neighbours c := by
  unfold Map.get_neighbours Map.is_passable Map.validate_coord Map.tileAt
    Map.y_extent
  rw [h]

/-! Lemmas about the reference reachability relation. -/

theorem reaches_zero {m : Map} {c d : Coord} (h : Reaches m c d 0) : c = d := by
  cases h
  rfl

theorem reaches_snoc {m : Map} {c d e : Coord} {n : Nat}
    (h : Reaches m c d n) (he : e ∈ m.get_neighbours d) :
    Reaches m c e (n + 1) := by
  induction h with
  | refl c => exact Reaches.step he (Reaches.refl e)
  | step hd _ ih => exact Reaches.step hd (ih he)

theorem reaches_succ_inv {m : Map} {c e : Coord} :
    ∀ {n : Nat}, Reaches m c e (n + 1) →
      ∃ d, Reaches m c d n ∧ e ∈ m.get_neighbours d := by
  intro n
  induction n generalizing c with
  | zero =>
    intro h
    cases h with
    | step hd hr =>
      have hde := reaches_zero hr
      subst hde
      exact ⟨c, Reaches.refl c, hd⟩
  | succ k ih =>
    intro h
    cases h with
    | step hd hr =>
      obtain ⟨w, hw, he⟩ := ih hr
      exact ⟨w, Reaches.step hd hw, he⟩

theorem reaches_target_passable {m : Map} {c e : Coord} {n : Nat}
    (h : Reaches m c e (n + 1)) : m.is_passable e = true := by
  obtain ⟨d, _, he⟩ := reaches_succ_inv h
  exact neighbours_passable m he

theorem reaches_reverse {m : Map} {c d : Coord} {n : Nat}
    (hc : m.is_passable c = true) (h : Reaches m c d n) :
    Reaches m d c n := by
  induction h with
  | refl c => exact Reaches.refl c
  | step hd hr ih =>
    exact reaches_snoc (ih (neighbours_passable m hd)) (neighbours_symm m hd hc)

theorem reaches_congr {m m' : Map} (h : m.array = m'.array) {c d : Coord}
    {n : Nat} (hr : Reaches m c d n) : Reaches m' c d n := by
  induction hr with
  | refl c => exact Reaches.refl c
  | step hd _ ih => exact Reaches.step (get_neighbours_congr h _ ▸ hd) ih

theorem specShortest_unique {m : Map} {n k : Nat}
    (h1 : SpecShortestPathLen m n) (h2 : SpecShortestPathLen m k) : n = k :=
  le_antisymm (h1.2 k h2.1) (h2.2 n h1.1)

/-! Lemmas about the Manhattan heuristic. -/

theorem heuristic_self (a : Coord) : Map.heuristic a a = 0 := by
  simp [Map.heuristic]

theorem heuristic_consistent {c d : Coord} (h : d ∈ candidateNeighbours c)
    (z : Coord) : Map.heuristic c z ≤ Map.heuristic d z + 1 := by
  rw [mem_candidates] at h
  rcases h with h | h | h | h <;> subst h <;> simp [Map.heuristic] <;> omega

theorem heuristic_le_path {m : Map} {y z : Coord} {j : Nat}
    (h : Reaches m y z j) :
    Map.heuristic y m.q ≤ j + Map.heuristic z m.q := by
  induction h with
  | refl c => omega
  | step hd _ ih =>
    have := heuristic_consistent ((mem_neighbours _ _ _).1 hd).1 m.q
    omega

theorem heuristic_admissible {m : Map} {y : Coord} {j : Nat}
    (h : Reaches m y m.q j) : Map.heuristic y m.q ≤ j := by
  have := heuristic_le_path h
  rw [heuristic_self] at this
  omega

/-! Correctness of the BFS search. -/

/-- Every entry of a queue headed by an entry at level s sits at level at
least s. -/
theorem bfs_head_le_steps {m : Map} {c : Coord} {s : Nat}
    {rest : List (Coord × Nat)} {visited : List Coord}
    (inv : BfsInv m ((c, s) :: rest) visited) :
    ∀ e ∈ (c, s) :: rest, s ≤ e.2 := by
  intro e he
  rcases List.mem_cons.1 he with h | h
  · rw [h]
  · exact ((List.pairwise_cons.1 inv.stepsPairwise).1 e h).1

/-- Covering property of the BFS state: any walk from a visited coordinate
to an unvisited one can be rerouted through a queue entry without getting
longer, counting the queue entry's recorded steps. -/
theorem bfs_cover {m : Map} {queue : List (Coord × Nat)}
    {visited : List Coord} (inv : BfsInv m queue visited) {jn : Nat}
    {u z : Coord} (hr : Reaches m u z jn) :
    u ∈ visited → z ∉ visited → ∀ i : Nat, Reaches m m.p u i →
      ∃ e ∈ queue, ∃ j, Reaches m e.1 z j ∧ e.2 + j ≤ i + jn := by
  induction hr with
  | refl w => intro hu hz _ _; exact absurd hu hz
  | @step c d z n hd hr ih =>
    intro hu hz i hpi
    by_cases hdv : d ∈ visited
    · obtain ⟨e', he', j, hj, hle⟩ := ih hdv hz (i + 1) (reaches_snoc hpi hd)
      exact ⟨e', he', j, hj, by omega⟩
    · by_cases hcq : ∀ e' ∈ queue, e'.1 ≠ c
      · exact absurd (inv.closed c hu hcq d hd) hdv
      · push_neg at hcq
        obtain ⟨e', he', hec⟩ := hcq
        refine ⟨e', he', n + 1, ?_, ?_⟩
        · rw [hec]; exact Reaches.step hd hr
        · have hpe : Reaches m m.p e'.1 i := by rw [hec]; exact hpi
          have := inv.entriesMin e' he' i hpe
          omega

/-- The BFS loop body preserves the invariant when the dequeued entry does
not see q among its neighbours. -/
theorem bfs_inv_step {m : Map} {c : Coord} {s : Nat}
    {rest : List (Coord × Nat)} {visited : List Coord}
    (inv : BfsInv m ((c, s) :: rest) visited)
    (hq : m.q ∉ m.get_neighbours c) :
    BfsInv m
      (rest ++ ((m.get_neighbours c).filter
        (fun v => decide (v ∉ visited))).map (fun v => (v, s + 1)))
      (visited ++ (m.get_neighbours c).filter
        (fun v => decide (v ∉ visited))) := by
  have hreach_c : Reaches m m.p c s := inv.entriesReach (c, s) (by simp)
  have hmem_fresh : ∀ v, v ∈ (m.get_neighbours c).filter
      (fun v => decide (v ∉ visited)) ↔
      v ∈ m.get_neighbours c ∧ v ∉ visited := by
    intro v
    simp [List.mem_filter]
  have hrest_pair := List.pairwise_cons.1 inv.stepsPairwise
  refine ⟨?_, ?_, ?_, ?_, ?_, ?_, ?_, ?_⟩
  · intro e he
    rcases List.mem_append.1 he with h | h
    · exact inv.entriesReach e (List.mem_cons_of_mem _ h)
    · obtain ⟨v, hv, rfl⟩ := List.mem_map.1 h
      exact reaches_snoc hreach_c ((hmem_fresh v).1 hv).1
  · intro e he k hk
    rcases List.mem_append.1 he with h | h
    · exact inv.entriesMin e (List.mem_cons_of_mem _ h) k hk
    · obtain ⟨v, hv, rfl⟩ := List.mem_map.1 h
      by_contra hlt
      push_neg at hlt
      obtain ⟨e', he', j, hj, hle⟩ :=
        bfs_cover inv hk inv.pVisited ((hmem_fresh v).1 hv).2 0
          (Reaches.refl _)
      have hse : s ≤ e'.2 := bfs_head_le_steps inv e' he'
      have hj0 : j = 0 := by omega
      rw [hj0] at hj
      have hev := reaches_zero hj
      have hv1 := inv.entriesVisited e' he'
      rw [hev] at hv1
      exact ((hmem_fresh v).1 hv).2 hv1
  · intro e he
    rcases List.mem_append.1 he with h | h
    · exact List.mem_append_left _ (inv.entriesVisited e (List.mem_cons_of_mem _ h))
    · obtain ⟨v, hv, rfl⟩ := List.mem_map.1 h
      exact List.mem_append_right _ hv
  · rw [List.pairwise_append]
    refine ⟨hrest_pair.2, ?_, ?_⟩
    · clear hmem_fresh
      generalize (m.get_neighbours c).filter (fun v => decide (v ∉ visited)) = l
      induction l with
      | nil => simp
      | cons a l ih =>
        rw [List.map_cons, List.pairwise_cons]
        refine ⟨?_, ih⟩
        intro b hb
        obtain ⟨v, _, rfl⟩ := List.mem_map.1 hb
        omega
    · intro a ha b hb
      obtain ⟨v, _, rfl⟩ := List.mem_map.1 hb
      have := (hrest_pair.1 a ha)
      simp only
      omega
  · intro hmem
    rcases List.mem_append.1 hmem with h | h
    · exact inv.qNotVisited h
    · exact hq ((hmem_fresh _).1 h).1
  · exact List.mem_append_left _ inv.pVisited
  · intro v hv hnq d hd
    rcases List.mem_append.1 hv with h | h
    · by_cases hvc : v = c
      · subst hvc
        by_cases hdv : d ∈ visited
        · exact List.mem_append_left _ hdv
        · exact List.mem_append_right _ ((hmem_fresh d).2 ⟨hd, hdv⟩)
      · have hold : ∀ e ∈ (c, s) :: rest, e.1 ≠ v := by
          intro e he
          rcases List.mem_cons.1 he with h' | h'
          · rw [h']; exact fun hc => hvc hc.symm
          · exact hnq e (List.mem_append_left _ h')
        exact List.mem_append_left _ (inv.closed v h hold d hd)
    · exfalso
      refine hnq (v, s + 1) (List.mem_append_right _ ?_) rfl
      exact List.mem_map.2 ⟨v, h, rfl⟩
  · intro v hv
    rcases List.mem_append.1 hv with h | h
    · exact inv.visitedUniv v h
    · exact Or.inr (neighbours_passable m ((hmem_fresh v).1 h).1)

/-- Soundness of the BFS loop: a returned count is the true shortest path
length, and a NoPossiblePath outcome means q is unreachable from p. -/
theorem bfsAux_sound (m : Map) :
    ∀ fuel (queue : List (Coord × Nat)) (visited : List Coord),
      BfsInv m queue visited →
      (∀ n, bfsAux m fuel queue visited = SearchResult.found n →
        SpecShortestPathLen m n) ∧
      (bfsAux m fuel queue visited = SearchResult.noPath →
        ∀ k, ¬ Reaches m m.p m.q k) := by
  intro fuel
  induction fuel with
  | zero =>
    intro queue visited _
    constructor
    · intro n h; simp [bfsAux] at h
    · intro h; simp [bfsAux] at h
  | succ fuel ih =>
    intro queue visited inv
    match queue with
    | [] =>
      constructor
      · intro n h; simp [bfsAux] at h
      · intro _ k hk
        obtain ⟨e, he, _⟩ :=
          bfs_cover inv hk inv.pVisited inv.qNotVisited 0 (Reaches.refl _)
        exact absurd he (List.not_mem_nil e)
    | (c, s) :: rest =>
      by_cases hq : m.q ∈ m.get_neighbours c
      · constructor
        · intro n h
          simp only [bfsAux, if_pos hq, SearchResult.found.injEq] at h
          subst h
          refine ⟨reaches_snoc (inv.entriesReach (c, s) (by simp)) hq, ?_⟩
          intro k hk
          by_contra hlt
          push_neg at hlt
          obtain ⟨e, he, j, hj, hle⟩ :=
            bfs_cover inv hk inv.pVisited inv.qNotVisited 0 (Reaches.refl _)
          have hse : s ≤ e.2 := bfs_head_le_steps inv e he
          have hj0 : j = 0 := by omega
          rw [hj0] at hj
          have := reaches_zero hj
          exact inv.qNotVisited (this ▸ inv.entriesVisited e he)
        · intro h
          simp only [bfsAux, if_pos hq] at h
          exact SearchResult.noConfusion h
      · have hrec := ih _ _ (bfs_inv_step inv hq)
        constructor
        · intro n h
          simp only [bfsAux, if_neg hq] at h
          exact hrec.1 n h
        · intro h
          simp only [bfsAux, if_neg hq] at h
          exact hrec.2 h

/-- The initial BFS state satisfies the loop invariant when p differs
from q. -/
theorem bfs_init_inv (m : Map) (hne : m.p ≠ m.q) :
    BfsInv m [(m.p, 0)] [m.p] := by
  refine ⟨?_, ?_, ?_, ?_, ?_, ?_, ?_, ?_⟩
  · intro e he
    rcases List.mem_singleton.1 he with rfl
    exact Reaches.refl _
  · intro e he k _
    rcases List.mem_singleton.1 he with rfl
    exact Nat.zero_le k
  · intro e he
    rcases List.mem_singleton.1 he with rfl
    simp
  · simp
  · intro h
    rcases List.mem_singleton.1 h with h
    exact hne h.symm
  · simp
  · intro v hv hnq
    rcases List.mem_singleton.1 hv with rfl
    exact absurd rfl (hnq (m.p, 0) (List.mem_singleton.2 rfl))
  · intro v hv
    rcases List.mem_singleton.1 hv with rfl
    exact Or.inl rfl

/-- A value returned by get_shortest_path is the true shortest path
length. -/
theorem bfs_found_shortest {m : Map} {n : Nat}
    (h : m.get_shortest_path = SearchResult.found n) :
    SpecShortestPathLen m n := by
  unfold Map.get_shortest_path at h
  by_cases hpq : m.p = m.q
  · rw [if_pos hpq] at h
    have hn : n = 0 := by
      cases h
      rfl
    subst hn
    refine ⟨hpq ▸ Reaches.refl m.p, fun k _ => Nat.zero_le k⟩
  · rw [if_neg hpq] at h
    exact (bfsAux_sound m _ _ _ (bfs_init_inv m hpq)).1 n h

/-- A NoPossiblePath outcome of get_shortest_path means q is unreachable
from p. -/
theorem bfs_noPath_unreachable {m : Map}
    (h : m.get_shortest_path = SearchResult.noPath) :
    ∀ k, ¬ Reaches m m.p m.q k := by
  unfold Map.get_shortest_path at h
  by_cases hpq : m.p = m.q
  · rw [if_pos hpq] at h
    cases h
  · rw [if_neg hpq] at h
    exact (bfsAux_sound m _ _ _ (bfs_init_inv m hpq)).2 h

/-- The BFS loop never exhausts its fuel while the measure
queue length plus twice the unvisited part of the search universe remains
below it. -/
theorem bfsAux_no_fuelOut (m : Map) :
    ∀ fuel (queue : List (Coord × Nat)) (visited : List Coord),
      BfsInv m queue visited →
      queue.length + 2 * ((searchUniverse m) \ visited.toFinset).card < fuel →
      bfsAux m fuel queue visited ≠ SearchResult.outOfFuel := by
  intro fuel
  induction fuel with
  | zero => intro queue visited _ hm; omega
  | succ fuel ih =>
    intro queue visited inv hm
    match queue with
    | [] => simp [bfsAux]
    | (c, s) :: rest =>
      by_cases hq : m.q ∈ m.get_neighbours c
      · simp [bfsAux, if_pos hq]
      · simp only [bfsAux, if_neg hq]
        apply ih _ _ (bfs_inv_step inv hq)
        have hnodup : ((m.get_neighbours c).filter
            (fun v => decide (v ∉ visited))).Nodup :=
          (neighbours_nodup m c).filter _
        set fresh := (m.get_neighbours c).filter
          (fun v => decide (v ∉ visited)) with hfresh
        have hsub : fresh.toFinset ⊆
            searchUniverse m \ visited.toFinset := by
          intro v hv
          rw [List.mem_toFinset, hfresh, List.mem_filter] at hv
          rw [Finset.mem_sdiff]
          constructor
          · exact Finset.mem_insert_of_mem
              (passable_mem_gridCells m v (neighbours_passable m hv.1))
          · rw [List.mem_toFinset]
            simpa using hv.2
        have hcard : fresh.toFinset.card = fresh.length :=
          List.toFinset_card_of_nodup hnodup
        have hunion : (visited ++ fresh).toFinset =
            visited.toFinset ∪ fresh.toFinset := List.toFinset_append
        have hsdiff : searchUniverse m \ (visited.toFinset ∪ fresh.toFinset) =
            (searchUniverse m \ visited.toFinset) \ fresh.toFinset := by
          ext a
          simp only [Finset.mem_sdiff, Finset.mem_union]
          tauto
        have hcard2 : ((searchUniverse m \ visited.toFinset) \
            fresh.toFinset).card =
            (searchUniverse m \ visited.toFinset).card -
              fresh.toFinset.card := Finset.card_sdiff hsub
        have hle : fresh.toFinset.card ≤
            (searchUniverse m \ visited.toFinset).card :=
          Finset.card_le_card hsub
        rw [hunion, hsdiff]
        simp only [List.length_append, List.length_map]
        simp only [List.length_cons] at hm
        omega

/-- More fuel than needed does not change the BFS result. -/
theorem bfsAux_fuel_mono (m : Map) :
    ∀ fuel fuel' (queue : List (Coord × Nat)) (visited : List Coord),
      bfsAux m fuel queue visited ≠ SearchResult.outOfFuel → fuel ≤ fuel' →
      bfsAux m fuel' queue visited = bfsAux m fuel queue visited := by
  intro fuel
  induction fuel with
  | zero =>
    intro fuel' queue visited h _
    exact absurd rfl h
  | succ fuel ih =>
    intro fuel' queue visited h hle
    obtain ⟨f', rfl⟩ : ∃ f', fuel' = f' + 1 := ⟨fuel' - 1, by omega⟩
    match queue with
    | [] => simp [bfsAux]
    | (c, s) :: rest =>
      by_cases hq : m.q ∈ m.get_neighbours c
      · simp [bfsAux, if_pos hq]
      · simp only [bfsAux, if_neg hq] at h ⊢
        exact ih f' _ _ h (by omega)

/-- The BFS loop never raises a dictionary KeyError: no branch of
get_shortest_path produces keyErr. -/
theorem bfsAux_ne_keyErr (m : Map) :
    ∀ fuel (queue : List (Coord × Nat)) (visited : List Coord),
      bfsAux m fuel queue visited ≠ SearchResult.keyErr := by
  intro fuel
  induction fuel with
  | zero => intro queue visited; simp [bfsAux]
  | succ fuel ih =>
    intro queue visited
    match queue with
    | [] => simp [bfsAux]
    | (c, s) :: rest =>
      by_cases hq : m.q ∈ m.get_neighbours c
      · simp [bfsAux, if_pos hq]
      · simp only [bfsAux, if_neg hq]
        exact ih _ _

/-- get_shortest_path never exhausts its fuel: the chosen fuel dominates
the loop measure, so the Python while loop, which has no fuel, terminates
on every grid. -/
theorem bfs_ne_fuelOut (m : Map) :
    m.get_shortest_path ≠ SearchResult.outOfFuel := by
  unfold Map.get_shortest_path
  by_cases hpq : m.p = m.q
  · rw [if_pos hpq]
    simp
  · rw [if_neg hpq]
    apply bfsAux_no_fuelOut m _ _ _ (bfs_init_inv m hpq)
    have h1 : ((searchUniverse m) \ ([m.p] : List Coord).toFinset).card ≤
        (searchUniverse m).card :=
      Finset.card_le_card (Finset.sdiff_subset)
    have h2 := card_searchUniverse_le m
    unfold Map.bfsFuel
    simp only [List.length_singleton]
    omega

/-- get_shortest_path always returns a step count or NoPossiblePath. -/
theorem bfs_total (m : Map) :
    (∃ n, m.get_shortest_path = SearchResult.found n) ∨
      m.get_shortest_path = SearchResult.noPath := by
  cases h : m.get_shortest_path with
  | found n => exact Or.inl ⟨n, rfl⟩
  | noPath => exact Or.inr rfl
  | keyErr =>
    exfalso
    unfold Map.get_shortest_path at h
    by_cases hpq : m.p = m.q
    · rw [if_pos hpq] at h; cases h
    · rw [if_neg hpq] at h
      exact bfsAux_ne_keyErr m _ _ _ h
  | outOfFuel => exact absurd h (bfs_ne_fuelOut m)

/-- If q is reachable from p, get_shortest_path returns the true shortest
path length. -/
theorem bfs_complete {m : Map} {k : Nat} (h : Reaches m m.p m.q k) :
    ∃ n, m.get_shortest_path = SearchResult.found n ∧
      SpecShortestPathLen m n := by
  rcases bfs_total m with ⟨n, hn⟩ | hn
  · exact ⟨n, hn, bfs_found_shortest hn⟩
  · exact absurd h (bfs_noPath_unreachable hn k)

/-! Properties of the modelled priority queue and of the successor loop. -/

theorem pqPop_eq_none_iff (f : List (Coord × Nat)) :
    pqPop f = none ↔ f = [] := by
  cases f with
  | nil => simp [pqPop]
  | cons e rest =>
    simp only [pqPop]
    cases h : pqPop rest with
    | none => simp
    | some p =>
      obtain ⟨e', rest'⟩ := p
      by_cases hle : e.2 ≤ e'.2 <;> simp [hle]

/-- The popped entry belongs to the queue, has minimal priority, every
other entry value survives into the remainder, the remainder is contained
in the queue, and the length drops by one. -/
theorem pqPop_spec :
    ∀ {f : List (Coord × Nat)} {e₀ : Coord × Nat} {f' : List (Coord × Nat)},
      pqPop f = some (e₀, f') →
      e₀ ∈ f ∧ (∀ e ∈ f, e₀.2 ≤ e.2) ∧ (∀ e ∈ f, e ≠ e₀ → e ∈ f') ∧
        (∀ e ∈ f', e ∈ f) ∧ f'.length + 1 = f.length := by
  intro f
  induction f with
  | nil => intro e₀ f' h; simp [pqPop] at h
  | cons e rest ih =>
    intro e₀ f' h
    simp only [pqPop] at h
    cases hrest : pqPop rest with
    | none =>
      rw [hrest] at h
      rw [pqPop_eq_none_iff] at hrest
      subst hrest
      obtain ⟨rfl, rfl⟩ : e₀ = e ∧ f' = [] := by
        cases h; exact ⟨rfl, rfl⟩
      refine ⟨List.mem_singleton.2 rfl, ?_, ?_, ?_, rfl⟩
      · intro x hx
        rcases List.mem_singleton.1 hx with rfl
        exact le_refl _
      · intro x hx hne
        rcases List.mem_singleton.1 hx with rfl
        exact absurd rfl hne
      · intro x hx
        exact absurd hx (List.not_mem_nil x)
    | some p =>
      obtain ⟨e', rest'⟩ := p
      rw [hrest] at h
      dsimp only at h
      obtain ⟨hmem', hmin', hsurv', hsub', hlen'⟩ := ih hrest
      by_cases hle : e.2 ≤ e'.2
      · rw [if_pos hle] at h
        obtain ⟨rfl, rfl⟩ : e₀ = e ∧ f' = rest := by
          cases h; exact ⟨rfl, rfl⟩
        refine ⟨List.mem_cons_self _ _, ?_, ?_, ?_, rfl⟩
        · intro x hx
          rcases List.mem_cons.1 hx with rfl | hx
          · exact le_refl _
          · exact le_trans hle (hmin' x hx)
        · intro x hx hne
          rcases List.mem_cons.1 hx with rfl | hx
          · exact absurd rfl hne
          · exact hx
        · intro x hx
          exact List.mem_cons_of_mem _ hx
      · rw [if_neg hle] at h
        obtain ⟨rfl, rfl⟩ : e₀ = e' ∧ f' = e :: rest' := by
          cases h; exact ⟨rfl, rfl⟩
        refine ⟨List.mem_cons_of_mem _ hmem', ?_, ?_, ?_, by
          simp only [List.length_cons]; omega⟩
        · intro x hx
          rcases List.mem_cons.1 hx with rfl | hx
          · omega
          · exact hmin' x hx
        · intro x hx hne
          rcases List.mem_cons.1 hx with rfl | hx
          · exact List.mem_cons_self _ _
          · exact List.mem_cons_of_mem _ (hsurv' x hx hne)
        · intro x hx
          rcases List.mem_cons.1 hx with rfl | hx
          · exact List.mem_cons_self _ _
          · exact List.mem_cons_of_mem _ (hsub' x hx)

/-- The frontier produced by the successor loop: the incoming frontier
followed by one push per successor, in order, at priority
dn + 1 + heuristic. -/
theorem expand_frontier (m : Map) (dn : Nat) :
    ∀ (ss : List Coord) (f : List (Coord × Nat))
      (dist : Coord → Option Nat),
      (astarExpand m dn ss f dist).1 =
        f ++ ss.map (fun s => (s, dn + 1 + Map.heuristic s m.q)) := by
  intro ss
  induction ss with
  | nil => intro f dist; simp [astarExpand]
  | cons s ss ih =>
    intro f dist
    simp only [astarExpand]
    rw [ih]
    simp [pqAdd]

/-- The successor loop leaves the recorded distance of any coordinate that
is not a successor unchanged. -/
theorem expand_dist_not_mem (m : Map) (dn : Nat) :
    ∀ (ss : List Coord) (f : List (Coord × Nat))
      (dist : Coord → Option Nat) (c : Coord), c ∉ ss →
      (astarExpand m dn ss f dist).2 c = dist c := by
  intro ss
  induction ss with
  | nil => intro f dist c _; simp [astarExpand]
  | cons s ss ih =>
    intro f dist c hc
    have hcs : c ≠ s := fun h => hc (h ▸ List.mem_cons_self s ss)
    have hcss : c ∉ ss := fun h => hc (List.mem_cons_of_mem s h)
    simp only [astarExpand]
    rw [ih _ _ c hcss]
    cases hds : dist s with
    | none => simp [hds, hcs]
    | some ds =>
      by_cases hlt : dn + 1 < ds <;> simp [hds, hlt, hcs]

/-- The successor loop records updVal for every successor. -/
theorem expand_dist_mem (m : Map) (dn : Nat) :
    ∀ (ss : List Coord) (f : List (Coord × Nat))
      (dist : Coord → Option Nat) (s : Coord), ss.Nodup → s ∈ ss →
      (astarExpand m dn ss f dist).2 s = some (updVal dn (dist s)) := by
  intro ss
  induction ss with
  | nil => intro f dist s _ h; exact absurd h (List.not_mem_nil s)
  | cons a ss ih =>
    intro f dist s hnd hs
    have hna : a ∉ ss := (List.nodup_cons.1 hnd).1
    have hnd' : ss.Nodup := (List.nodup_cons.1 hnd).2
    rcases List.mem_cons.1 hs with rfl | hs'
    · simp only [astarExpand]
      rw [expand_dist_not_mem m dn ss _ _ s hna]
      cases hds : dist s with
      | none => simp [hds, updVal]
      | some ds =>
        by_cases hlt : dn + 1 < ds <;> simp [hds, updVal, hlt]
    · have hsa : s ≠ a := fun h => hna (h ▸ hs')
      simp only [astarExpand]
      rw [ih _ _ s hnd' hs']
      cases hds : dist a with
      | none => simp [hds, hsa]
      | some ds =>
        by_cases hlt : dn + 1 < ds <;> simp [hds, hlt, hsa]

theorem updVal_le (dn : Nat) (o : Option Nat) : updVal dn o ≤ dn + 1 := by
  cases o with
  | none => simp [updVal]
  | some ds =>
    by_cases hlt : dn + 1 < ds
    · simp [updVal, hlt]
    · simp only [updVal, if_neg hlt]
      omega

theorem updVal_le_old (dn ds : Nat) : updVal dn (some ds) ≤ ds := by
  by_cases hlt : dn + 1 < ds
  · simp only [updVal, if_pos hlt]
    omega
  · simp only [updVal, if_neg hlt]
    omega

/-! Correctness of the A-star search. -/

/-- Discarding a popped entry of an already visited node preserves the
A-star invariant. -/
theorem astar_skip_inv {m : Map} {f f' : List (Coord × Nat)}
    {dist : Coord → Option Nat} {visited : List Coord} {node : Coord}
    {pr : Nat} (inv : AstarInv m f dist visited)
    (hpop : pqPop f = some ((node, pr), f')) (hvis : node ∈ visited) :
    AstarInv m f' dist visited := by
  obtain ⟨hmem, hmin, hsurv, hsub, hlen⟩ := pqPop_spec hpop
  refine ⟨inv.distReach, ?_, inv.visitedOpt, ?_, ?_, inv.qNotVisited, ?_⟩
  · intro e he
    exact inv.entryDist e (hsub e he)
  · intro v hv d hd hdv
    obtain ⟨pr', hpr', nv, hnv', hb⟩ := inv.visitedClosed v hv d hd hdv
    refine ⟨pr', hsurv _ hpr' ?_, nv, hnv', hb⟩
    intro hcontra
    apply hdv
    have hdn : d = node := congrArg Prod.fst hcontra
    rw [hdn]
    exact hvis
  · intro hpv
    obtain ⟨pr', hpr', hb⟩ := inv.pCovered hpv
    refine ⟨pr', hsurv _ hpr' ?_, hb⟩
    intro hcontra
    apply hpv
    have hpn : m.p = node := congrArg Prod.fst hcontra
    rw [hpn]
    exact hvis
  · intro e he
    exact inv.fUniv e (hsub e he)

/-- Covering property of the A-star state: any walk from a visited
coordinate to an unvisited one can be rerouted through a frontier entry
whose priority is bounded by a split point of the walk plus the
heuristic. -/
theorem astar_cover {m : Map} {f : List (Coord × Nat)}
    {dist : Coord → Option Nat} {visited : List Coord}
    (inv : AstarInv m f dist visited) {jn : Nat} {u z : Coord}
    (hr : Reaches m u z jn) :
    u ∈ visited → z ∉ visited → ∀ i : Nat, Reaches m m.p u i →
      ∃ y pry j i', (y, pry) ∈ f ∧ Reaches m y z j ∧ i' + j ≤ i + jn ∧
        pry ≤ i' + Map.heuristic y m.q := by
  induction hr with
  | refl w => intro hu hz _ _; exact absurd hu hz
  | @step c d z n hd hr ih =>
    intro hu hz i hpi
    by_cases hdv : d ∈ visited
    · obtain ⟨y, pry, j, i', hy, hj, hle, hb⟩ :=
        ih hdv hz (i + 1) (reaches_snoc hpi hd)
      exact ⟨y, pry, j, i', hy, hj, by omega, hb⟩
    · obtain ⟨prd, hprd, nv, hnv', hb⟩ := inv.visitedClosed c hu d hd hdv
      obtain ⟨n₀, hn₀, hminc⟩ := inv.visitedOpt c hu
      have hnveq : n₀ = nv := by
        rw [hn₀] at hnv'
        exact Option.some.inj hnv'
      have hnvi : nv ≤ i := hnveq ▸ hminc i hpi
      exact ⟨d, prd, n, nv + 1, hprd, hr, by omega, by omega⟩

/-- Any walk from p to an unvisited coordinate can be rerouted through a
frontier entry. -/
theorem astar_coverage {m : Map} {f : List (Coord × Nat)}
    {dist : Coord → Option Nat} {visited : List Coord}
    (inv : AstarInv m f dist visited) {z : Coord} {k : Nat}
    (hz : z ∉ visited) (hk : Reaches m m.p z k) :
    ∃ y pry j i', (y, pry) ∈ f ∧ Reaches m y z j ∧ i' + j ≤ k ∧
      pry ≤ i' + Map.heuristic y m.q := by
  by_cases hp : m.p ∈ visited
  · obtain ⟨y, pry, j, i', hy, hj, hle, hb⟩ :=
      astar_cover inv hk hp hz 0 (Reaches.refl _)
    exact ⟨y, pry, j, i', hy, hj, by omega, hb⟩
  · obtain ⟨pr₀, hpr₀, hb⟩ := inv.pCovered hp
    exact ⟨m.p, pr₀, k, 0, hpr₀, hk, by omega, by omega⟩

/-- When an unvisited node is popped, its recorded distance is minimal:
the heart of the Dijkstra-with-consistent-heuristic argument. -/
theorem astar_pop_min_opt {m : Map} {f f' : List (Coord × Nat)}
    {dist : Coord → Option Nat} {visited : List Coord} {node : Coord}
    {pr : Nat} (inv : AstarInv m f dist visited)
    (hpop : pqPop f = some ((node, pr), f')) (hnv : node ∉ visited)
    {dn : Nat} (hdn : dist node = some dn) :
    ∀ k, Reaches m m.p node k → dn ≤ k := by
  intro k hk
  obtain ⟨y, pry, j, i', hy, hj, hle, hb⟩ := astar_coverage inv hnv hk
  obtain ⟨hmem, hmin, _, _, _⟩ := pqPop_spec hpop
  have hple : pr ≤ pry := hmin (y, pry) hy
  obtain ⟨n₀, hn₀, hcase⟩ := inv.entryDist (node, pr) hmem
  dsimp only at hn₀ hcase
  have hn₀dn : dn = n₀ := by
    rw [hdn] at hn₀
    exact Option.some.inj hn₀
  have hyllip := heuristic_le_path hj
  rcases hcase with hcase | ⟨_, hzero⟩ <;> omega

/-- Expanding a popped unvisited node that is not q preserves the A-star
invariant. -/
theorem astar_expand_inv {m : Map} {f f' : List (Coord × Nat)}
    {dist : Coord → Option Nat} {visited : List Coord} {node : Coord}
    {pr dn : Nat} (inv : AstarInv m f dist visited)
    (hpop : pqPop f = some ((node, pr), f')) (hnv : node ∉ visited)
    (hnq : node ≠ m.q) (hdn : dist node = some dn) :
    AstarInv m (astarExpand m dn (m.get_neighbours node) f' dist).1
      (astarExpand m dn (m.get_neighbours node) f' dist).2
      (node :: visited) := by
  obtain ⟨hmem, hmin, hsurv, hsub, hlen⟩ := pqPop_spec hpop
  have hmin_node : ∀ k, Reaches m m.p node k → dn ≤ k :=
    astar_pop_min_opt inv hpop hnv hdn
  have hreach_node : Reaches m m.p node dn := inv.distReach node dn hdn
  have hnodup : (m.get_neighbours node).Nodup := neighbours_nodup m node
  have hnode_ss : node ∉ m.get_neighbours node := self_not_mem_neighbours m node
  have hE1 : (astarExpand m dn (m.get_neighbours node) f' dist).1 =
      f' ++ (m.get_neighbours node).map
        (fun s => (s, dn + 1 + Map.heuristic s m.q)) :=
    expand_frontier m dn (m.get_neighbours node) f' dist
  have hE2not : ∀ c, c ∉ m.get_neighbours node →
      (astarExpand m dn (m.get_neighbours node) f' dist).2 c = dist c :=
    fun c hc => expand_dist_not_mem m dn (m.get_neighbours node) f' dist c hc
  have hE2mem : ∀ s ∈ m.get_neighbours node,
      (astarExpand m dn (m.get_neighbours node) f' dist).2 s =
        some (updVal dn (dist s)) :=
    fun s hs => expand_dist_mem m dn (m.get_neighbours node) f' dist s hnodup hs
  have hstable : ∀ v, v ∈ node :: visited →
      (astarExpand m dn (m.get_neighbours node) f' dist).2 v = dist v := by
    intro v hv
    by_cases hvs : v ∈ m.get_neighbours node
    · rcases List.mem_cons.1 hv with rfl | hv'
      · exact absurd hvs hnode_ss
      · obtain ⟨nv, hnv', hminv⟩ := inv.visitedOpt v hv'
        have hreachv : Reaches m m.p v (dn + 1) := reaches_snoc hreach_node hvs
        have hnvle : nv ≤ dn + 1 := hminv _ hreachv
        rw [hE2mem v hvs, hnv']
        have hnotlt : ¬ dn + 1 < nv := by omega
        simp [updVal, hnotlt]
    · exact hE2not v hvs
  have hmono : ∀ c n, dist c = some n →
      ∃ n', (astarExpand m dn (m.get_neighbours node) f' dist).2 c = some n' ∧
        n' ≤ n := by
    intro c n hc
    by_cases hcs : c ∈ m.get_neighbours node
    · refine ⟨updVal dn (some n), ?_, updVal_le_old dn n⟩
      rw [hE2mem c hcs, hc]
    · exact ⟨n, by rw [hE2not c hcs]; exact hc, le_refl n⟩
  refine ⟨?_, ?_, ?_, ?_, ?_, ?_, ?_⟩
  · intro c n' hc
    by_cases hcs : c ∈ m.get_neighbours node
    · rw [hE2mem c hcs] at hc
      have hval := Option.some.inj hc
      cases hdc : dist c with
      | none =>
        rw [hdc] at hval
        simp only [updVal] at hval
        rw [← hval]
        exact reaches_snoc hreach_node hcs
      | some ds =>
        rw [hdc] at hval
        by_cases hlt : dn + 1 < ds
        · simp only [updVal, if_pos hlt] at hval
          rw [← hval]
          exact reaches_snoc hreach_node hcs
        · simp only [updVal, if_neg hlt] at hval
          rw [← hval]
          exact inv.distReach c ds hdc
    · rw [hE2not c hcs] at hc
      exact inv.distReach c n' hc
  · intro e he
    rw [hE1] at he
    rcases List.mem_append.1 he with hef | hep
    · obtain ⟨n, hne, hcase⟩ := inv.entryDist e (hsub e hef)
      obtain ⟨n', hn', hle'⟩ := hmono e.1 n hne
      refine ⟨n', hn', ?_⟩
      rcases hcase with hcase | ⟨hp1, hn0⟩
      · exact Or.inl (by omega)
      · exact Or.inr ⟨hp1, by omega⟩
    · obtain ⟨s, hs, rfl⟩ := List.mem_map.1 hep
      refine ⟨updVal dn (dist s), hE2mem s hs, Or.inl ?_⟩
      have := updVal_le dn (dist s)
      dsimp only
      omega
  · intro v hv
    rcases List.mem_cons.1 hv with rfl | hv'
    · refine ⟨dn, ?_, hmin_node⟩
      rw [hstable _ (List.mem_cons_self _ _)]
      exact hdn
    · obtain ⟨nv, hnv', hminv⟩ := inv.visitedOpt v hv'
      refine ⟨nv, ?_, hminv⟩
      rw [hstable v (List.mem_cons_of_mem _ hv')]
      exact hnv'
  · intro v hv d hd hdv
    rcases List.mem_cons.1 hv with rfl | hv'
    · refine ⟨dn + 1 + Map.heuristic d m.q, ?_, dn, ?_, le_refl _⟩
      · rw [hE1]
        exact List.mem_append_right _ (List.mem_map.2 ⟨d, hd, rfl⟩)
      · rw [hstable _ (List.mem_cons_self _ _)]
        exact hdn
    · have hdnode : d ≠ node := fun h => hdv (h ▸ List.mem_cons_self _ _)
      have hdv' : d ∉ visited := fun h => hdv (List.mem_cons_of_mem _ h)
      obtain ⟨pr', hpr', nv, hnv', hb⟩ := inv.visitedClosed v hv' d hd hdv'
      refine ⟨pr', ?_, nv, ?_, hb⟩
      · rw [hE1]
        refine List.mem_append_left _ (hsurv _ hpr' ?_)
        intro hcontra
        exact hdnode (congrArg Prod.fst hcontra)
      · rw [hstable v (List.mem_cons_of_mem _ hv')]
        exact hnv'
  · intro hpv
    have hpnode : m.p ≠ node := fun h => hpv (h ▸ List.mem_cons_self _ _)
    have hpv' : m.p ∉ visited := fun h => hpv (List.mem_cons_of_mem _ h)
    obtain ⟨pr₀, hpr₀, hb⟩ := inv.pCovered hpv'
    refine ⟨pr₀, ?_, hb⟩
    rw [hE1]
    refine List.mem_append_left _ (hsurv _ hpr₀ ?_)
    intro hcontra
    exact hpnode (congrArg Prod.fst hcontra)
  · intro hq
    rcases List.mem_cons.1 hq with h | h
    · exact hnq h.symm
    · exact inv.qNotVisited h
  · intro e he
    rw [hE1] at he
    rcases List.mem_append.1 he with hef | hep
    · exact inv.fUniv e (hsub e hef)
    · obtain ⟨s, hs, rfl⟩ := List.mem_map.1 hep
      exact Or.inr (neighbours_passable m hs)

/-- Soundness of the A-star loop: a returned count is the true shortest
path length, and a NoPossiblePath outcome means q is unreachable. -/
theorem astarAux_sound (m : Map) :
    ∀ fuel (f : List (Coord × Nat)) (dist : Coord → Option Nat)
      (visited : List Coord), AstarInv m f dist visited →
      (∀ n, astarAux m fuel f dist visited = SearchResult.found n →
        SpecShortestPathLen m n) ∧
      (astarAux m fuel f dist visited = SearchResult.noPath →
        ∀ k, ¬ Reaches m m.p m.q k) := by
  intro fuel
  induction fuel with
  | zero =>
    intro f dist visited _
    constructor
    · intro n h
      simp [astarAux] at h
    · intro h
      simp [astarAux] at h
  | succ fuel ih =>
    intro f dist visited inv
    cases hpop : pqPop f with
    | none =>
      constructor
      · intro n h
        simp [astarAux, hpop] at h
      · intro _ k hk
        obtain ⟨y, pry, j, i', hy, _⟩ :=
          astar_coverage inv inv.qNotVisited hk
        rw [(pqPop_eq_none_iff f).1 hpop] at hy
        exact absurd hy (List.not_mem_nil _)
    | some pe =>
      obtain ⟨⟨node, pr⟩, f'⟩ := pe
      by_cases hvis : node ∈ visited
      · have hrec := ih f' dist visited (astar_skip_inv inv hpop hvis)
        constructor
        · intro n h
          simp only [astarAux, hpop] at h
          rw [if_pos hvis] at h
          exact hrec.1 n h
        · intro h
          simp only [astarAux, hpop] at h
          rw [if_pos hvis] at h
          exact hrec.2 h
      · by_cases hq : node = m.q
        · constructor
          · intro n h
            simp only [astarAux, hpop] at h
            rw [if_neg hvis, if_pos hq] at h
            cases hdn : dist node with
            | none =>
              rw [hdn] at h
              dsimp only at h
              exact SearchResult.noConfusion h
            | some dn =>
              rw [hdn] at h
              dsimp only at h
              have hn : dn = n := by
                cases h
                rfl
              subst hn
              subst hq
              refine ⟨inv.distReach _ _ hdn, ?_⟩
              intro k hk
              obtain ⟨y, pry, j, i', hy, hj, hle, hb⟩ :=
                astar_coverage inv hvis hk
              obtain ⟨hmem, hmin, _, _, _⟩ := pqPop_spec hpop
              have hple : pr ≤ pry := hmin (y, pry) hy
              obtain ⟨n₀, hn₀, hcase⟩ := inv.entryDist (m.q, pr) hmem
              dsimp only at hn₀ hcase
              have hn₀dn : dn = n₀ := by
                rw [hdn] at hn₀
                exact Option.some.inj hn₀
              have hadm : Map.heuristic y m.q ≤ j := heuristic_admissible hj
              have hqq : Map.heuristic m.q m.q = 0 := heuristic_self m.q
              rcases hcase with hcase | ⟨_, hzero⟩ <;> omega
          · intro h
            simp only [astarAux, hpop] at h
            rw [if_neg hvis, if_pos hq] at h
            cases hdn : dist node with
            | none =>
              rw [hdn] at h
              dsimp only at h
              exact SearchResult.noConfusion h
            | some dn =>
              rw [hdn] at h
              dsimp only at h
              exact SearchResult.noConfusion h
        · cases hdn : dist node with
          | none =>
            constructor
            · intro n h
              simp only [astarAux, hpop] at h
              rw [if_neg hvis, if_neg hq, hdn] at h
              dsimp only at h
              exact SearchResult.noConfusion h
            · intro h
              simp only [astarAux, hpop] at h
              rw [if_neg hvis, if_neg hq, hdn] at h
              dsimp only at h
              exact SearchResult.noConfusion h
          | some dn =>
            have hrec := ih _ _ _ (astar_expand_inv inv hpop hvis hq hdn)
            constructor
            · intro n h
              simp only [astarAux, hpop] at h
              rw [if_neg hvis, if_neg hq, hdn] at h
              exact hrec.1 n h
            · intro h
              simp only [astarAux, hpop] at h
              rw [if_neg hvis, if_neg hq, hdn] at h
              exact hrec.2 h

/-- The initial A-star state satisfies the invariant. -/
theorem astar_init_inv (m : Map) : AstarInv m [(m.p, 0)] m.dist0 [] := by
  refine ⟨?_, ?_, ?_, ?_, ?_, ?_, ?_⟩
  · intro c n hc
    unfold Map.dist0 at hc
    by_cases h : c = m.p
    · rw [if_pos h] at hc
      have h0 : (0 : Nat) = n := Option.some.inj hc
      subst h
      rw [← h0]
      exact Reaches.refl _
    · rw [if_neg h] at hc
      exact Option.noConfusion hc
  · intro e he
    rcases List.mem_singleton.1 he with rfl
    refine ⟨0, ?_, Or.inr ⟨rfl, rfl⟩⟩
    unfold Map.dist0
    simp
  · intro v hv
    exact absurd hv (List.not_mem_nil v)
  · intro v hv
    exact absurd hv (List.not_mem_nil v)
  · intro _
    exact ⟨0, List.mem_singleton.2 rfl, Nat.zero_le _⟩
  · exact List.not_mem_nil _
  · intro e he
    rcases List.mem_singleton.1 he with rfl
    exact Or.inl rfl

/-- The A-star loop never exhausts its fuel while the measure frontier
length plus five times the unvisited part of the search universe remains
below it. -/
theorem astarAux_no_fuelOut (m : Map) :
    ∀ fuel (f : List (Coord × Nat)) (dist : Coord → Option Nat)
      (visited : List Coord), AstarInv m f dist visited →
      f.length + 5 * ((searchUniverse m) \ visited.toFinset).card < fuel →
      astarAux m fuel f dist visited ≠ SearchResult.outOfFuel := by
  intro fuel
  induction fuel with
  | zero =>
    intro f dist visited _ hm
    omega
  | succ fuel ih =>
    intro f dist visited inv hm
    cases hpop : pqPop f with
    | none => simp [astarAux, hpop]
    | some pe =>
      obtain ⟨⟨node, pr⟩, f'⟩ := pe
      obtain ⟨hmem, _, _, _, hlen⟩ := pqPop_spec hpop
      by_cases hvis : node ∈ visited
      · simp only [astarAux, hpop]
        rw [if_pos hvis]
        apply ih f' dist visited (astar_skip_inv inv hpop hvis)
        omega
      · by_cases hq : node = m.q
        · simp only [astarAux, hpop]
          rw [if_neg hvis, if_pos hq]
          cases hdn : dist node with
          | none => simp [hdn]
          | some dn => simp [hdn]
        · cases hdn : dist node with
          | none =>
            simp only [astarAux, hpop]
            rw [if_neg hvis, if_neg hq]
            simp [hdn]
          | some dn =>
            simp only [astarAux, hpop]
            rw [if_neg hvis, if_neg hq]
            simp only [hdn]
            apply ih _ _ _ (astar_expand_inv inv hpop hvis hq hdn)
            have hE1len : (astarExpand m dn (m.get_neighbours node) f'
                dist).1.length =
                f'.length + (m.get_neighbours node).length := by
              rw [expand_frontier]
              simp
            have hnb : (m.get_neighbours node).length ≤ 4 :=
              neighbours_length_le m node
            have hnodeU : node ∈ searchUniverse m := by
              rcases inv.fUniv (node, pr) hmem with h | h
              · have hpn : node = m.p := h
                rw [hpn]
                exact Finset.mem_insert_self _ _
              · exact Finset.mem_insert_of_mem
                  (passable_mem_gridCells m node h)
            have hnodeNotV : node ∉ visited.toFinset := by
              rw [List.mem_toFinset]
              exact hvis
            have hins : ((node :: visited).toFinset : Finset Coord) =
                insert node visited.toFinset := by
              simp
            have hsdiff : searchUniverse m \ insert node visited.toFinset =
                (searchUniverse m \ visited.toFinset) \ {node} := by
              ext a
              simp only [Finset.mem_sdiff, Finset.mem_insert,
                Finset.mem_singleton]
              tauto
            have hnodein : ({node} : Finset Coord) ⊆
                searchUniverse m \ visited.toFinset := by
              intro a ha
              rw [Finset.mem_singleton] at ha
              subst ha
              rw [Finset.mem_sdiff]
              exact ⟨hnodeU, hnodeNotV⟩
            have hcards : ((searchUniverse m \ visited.toFinset) \
                ({node} : Finset Coord)).card =
                (searchUniverse m \ visited.toFinset).card - 1 := by
              rw [Finset.card_sdiff hnodein]
              simp
            have hpos : 1 ≤ (searchUniverse m \ visited.toFinset).card := by
              have hcle := Finset.card_le_card hnodein
              simpa using hcle
            rw [hins, hsdiff, hE1len, hcards]
            omega

/-- More fuel than needed does not change the A-star result. -/
theorem astarAux_fuel_mono (m : Map) :
    ∀ fuel fuel' (f : List (Coord × Nat)) (dist : Coord → Option Nat)
      (visited : List Coord),
      astarAux m fuel f dist visited ≠ SearchResult.outOfFuel →
      fuel ≤ fuel' →
      astarAux m fuel' f dist visited = astarAux m fuel f dist visited := by
  intro fuel
  induction fuel with
  | zero =>
    intro fuel' f dist visited h _
    exact absurd rfl h
  | succ fuel ih =>
    intro fuel' f dist visited h hle
    obtain ⟨g, rfl⟩ : ∃ g, fuel' = g + 1 := ⟨fuel' - 1, by omega⟩
    cases hpop : pqPop f with
    | none => simp [astarAux, hpop]
    | some pe =>
      obtain ⟨⟨node, pr⟩, f'⟩ := pe
      simp only [astarAux, hpop] at h ⊢
      by_cases hvis : node ∈ visited
      · simp only [if_pos hvis] at h ⊢
        exact ih g _ _ _ h (by omega)
      · simp only [if_neg hvis] at h ⊢
        by_cases hq : node = m.q
        · simp only [if_pos hq] at h ⊢
        · simp only [if_neg hq] at h ⊢
          cases hdn : dist node with
          | none => simp [hdn]
          | some dn =>
            simp only [hdn] at h ⊢
            exact ih g _ _ _ h (by omega)

/-- Under the invariant the A-star loop never produces a KeyError: every
popped node has a recorded distance when it is looked up. -/
theorem astarAux_ne_keyErr (m : Map) :
    ∀ fuel (f : List (Coord × Nat)) (dist : Coord → Option Nat)
      (visited : List Coord), AstarInv m f dist visited →
      astarAux m fuel f dist visited ≠ SearchResult.keyErr := by
  intro fuel
  induction fuel with
  | zero =>
    intro f dist visited _
    simp [astarAux]
  | succ fuel ih =>
    intro f dist visited inv
    cases hpop : pqPop f with
    | none => simp [astarAux, hpop]
    | some pe =>
      obtain ⟨⟨node, pr⟩, f'⟩ := pe
      obtain ⟨hmem, _, _, _, _⟩ := pqPop_spec hpop
      obtain ⟨n₀, hn₀, _⟩ := inv.entryDist (node, pr) hmem
      dsimp only at hn₀
      by_cases hvis : node ∈ visited
      · simp only [astarAux, hpop]
        rw [if_pos hvis]
        exact ih f' dist visited (astar_skip_inv inv hpop hvis)
      · by_cases hq : node = m.q
        · simp only [astarAux, hpop]
          rw [if_neg hvis, if_pos hq]
          simp [hn₀]
        · simp only [astarAux, hpop]
          rw [if_neg hvis, if_neg hq]
          simp only [hn₀]
          exact ih _ _ _ (astar_expand_inv inv hpop hvis hq hn₀)

/-- A value returned by get_shortest_path_astar is the true shortest path
length. -/
theorem astar_found_shortest {m : Map} {n : Nat}
    (h : m.get_shortest_path_astar = SearchResult.found n) :
    SpecShortestPathLen m n := by
  unfold Map.get_shortest_path_astar at h
  have hinit : pqAdd [] m.p 0 = [(m.p, 0)] := by simp [pqAdd]
  rw [hinit] at h
  exact (astarAux_sound m _ _ _ _ (astar_init_inv m)).1 n h

/-- A NoPossiblePath outcome of get_shortest_path_astar means q is
unreachable from p. -/
theorem astar_noPath_unreachable {m : Map}
    (h : m.get_shortest_path_astar = SearchResult.noPath) :
    ∀ k, ¬ Reaches m m.p m.q k := by
  unfold Map.get_shortest_path_astar at h
  have hinit : pqAdd [] m.p 0 = [(m.p, 0)] := by simp [pqAdd]
  rw [hinit] at h
  exact (astarAux_sound m _ _ _ _ (astar_init_inv m)).2 h

/-- get_shortest_path_astar never exhausts its fuel: the Python while
loop, which has no fuel, terminates on every grid. -/
theorem astar_ne_fuelOut (m : Map) :
    m.get_shortest_path_astar ≠ SearchResult.outOfFuel := by
  unfold Map.get_shortest_path_astar
  have hinit : pqAdd [] m.p 0 = [(m.p, 0)] := by simp [pqAdd]
  rw [hinit]
  apply astarAux_no_fuelOut m _ _ _ _ (astar_init_inv m)
  have h0 : (([] : List Coord).toFinset : Finset Coord) = ∅ := rfl
  rw [h0, Finset.sdiff_empty]
  have h2 := card_searchUniverse_le m
  unfold Map.astarFuel
  simp only [List.length_singleton]
  omega

/-- get_shortest_path_astar never raises a KeyError. -/
theorem astar_ne_keyErr (m : Map) :
    m.get_shortest_path_astar ≠ SearchResult.keyErr := by
  unfold Map.get_shortest_path_astar
  have hinit : pqAdd [] m.p 0 = [(m.p, 0)] := by simp [pqAdd]
  rw [hinit]
  exact astarAux_ne_keyErr m _ _ _ _ (astar_init_inv m)

/-- get_shortest_path_astar always returns a step count or
NoPossiblePath. -/
theorem astar_total (m : Map) :
    (∃ n, m.get_shortest_path_astar = SearchResult.found n) ∨
      m.get_shortest_path_astar = SearchResult.noPath := by
  cases h : m.get_shortest_path_astar with
  | found n => exact Or.inl ⟨n, rfl⟩
  | noPath => exact Or.inr rfl
  | keyErr => exact absurd h (astar_ne_keyErr m)
  | outOfFuel => exact absurd h (astar_ne_fuelOut m)

/-- If q is reachable from p, get_shortest_path_astar returns the true
shortest path length. -/
theorem astar_complete {m : Map} {k : Nat} (h : Reaches m m.p m.q k) :
    ∃ n, m.get_shortest_path_astar = SearchResult.found n ∧
      SpecShortestPathLen m n := by
  rcases astar_total m with ⟨n, hn⟩ | hn
  · exact ⟨n, hn, astar_found_shortest hn⟩
  · exact absurd h (astar_noPath_unreachable hn k)

/-! Helper lemmas about construction, congruence in the grid array, and
symmetry of the reference shortest path. -/

theorem validate_ne_nil_iff (m : Map) (c : Coord) :
    m.validate_coord c ≠ [] ↔ violatesBounds m c := by
  rw [Ne, validate_nil_iff]
  unfold violatesBounds
  omega

theorem validate_congr {m m' : Map} (h : m.array = m'.array) (c : Coord) :
    m.validate_coord c = m'.validate_coord c := by
  unfold Map.validate_coord Map.y_extent
  rw [h]

theorem is_passable_congr {m m' : Map} (h : m.array = m'.array) (c : Coord) :
    m.is_passable c = m'.is_passable c := by
  unfold Map.is_passable
  rw [validate_congr h c]
  unfold Map.tileAt
  rw [h]

theorem is_passable_iff (m : Map) (d : Coord) :
    m.is_passable d = true ↔
      (m.validate_coord d = [] ∧ m.tileAt d ≠ "#") := by
  unfold Map.is_passable
  split_ifs with h <;> simp [h]

theorem mkMap_ok_iff (array : String) (p q : Coord) (m : Map) :
    mkMap array p q = Except.ok m ↔
      ((⟨parseMap array, p, q⟩ : Map).validate_coord p = [] ∧
       (⟨parseMap array, p, q⟩ : Map).validate_coord q = [] ∧
       m = ⟨parseMap array, p, q⟩) := by
  unfold mkMap
  dsimp only
  rcases h1 : (⟨parseMap array, p, q⟩ : Map).validate_coord p with _ | ⟨e1, es1⟩
  · rcases h2 : (⟨parseMap array, p, q⟩ : Map).validate_coord q with _ | ⟨e2, es2⟩
    · simp [eq_comm]
    · simp
  · simp

theorem mkMap_error_iff (array : String) (p q : Coord) :
    (∃ e, mkMap array p q = Except.error e) ↔
      ¬ ((⟨parseMap array, p, q⟩ : Map).validate_coord p = [] ∧
         (⟨parseMap array, p, q⟩ : Map).validate_coord q = []) := by
  unfold mkMap
  dsimp only
  rcases h1 : (⟨parseMap array, p, q⟩ : Map).validate_coord p with _ | ⟨e1, es1⟩
  · rcases h2 : (⟨parseMap array, p, q⟩ : Map).validate_coord q with _ | ⟨e2, es2⟩
    · simp
    · simp
  · simp

/-- Reversing a walk between two passable endpoints preserves the spec
shortest path length, with the roles of p and q swapped. -/
theorem spec_shortest_swap {arr : List (List String)} {p q : Coord} {n : Nat}
    (hp : (⟨arr, p, q⟩ : Map).is_passable p = true)
    (hq : (⟨arr, p, q⟩ : Map).is_passable q = true)
    (h : SpecShortestPathLen ⟨arr, p, q⟩ n) :
    SpecShortestPathLen ⟨arr, q, p⟩ n := by
  have harr : (⟨arr, p, q⟩ : Map).array = (⟨arr, q, p⟩ : Map).array := rfl
  constructor
  · exact reaches_congr harr (reaches_reverse hp h.1)
  · intro k hk
    have h2 : Reaches ⟨arr, p, q⟩ q p k := reaches_congr harr.symm hk
    exact h.2 k (reaches_reverse hq h2)

/-! The claim theorems. -/

/-- C1: for every grid and every in-bounds coordinate pair, whenever both
the BFS search (get_shortest_path) and the A-star search
(get_shortest_path_astar) return an integer, the two integers are equal
and equal the true shortest path length from p to q under 4-directional
unit-cost movement through passable cells (each move enters a passable
cell; the cell the walk starts on is the cell the mover already
occupies). -/
theorem claim1_bfs_astar_agree_and_shortest (m : Map)
    (_hp : m.validate_coord m.p = []) (_hq : m.validate_coord m.q = [])
    (n k : Nat) (hbfs : m.get_shortest_path = SearchResult.found n)
    (hastar : m.get_shortest_path_astar = SearchResult.found k) :
    n = k ∧ SpecShortestPathLen m n := by
  have h1 := bfs_found_shortest hbfs
  have h2 := astar_found_shortest hastar
  exact ⟨specShortest_unique h1 h2, h1⟩

/-- Witness for C1 on a concrete one-row grid of two passable cells. -/
theorem claim1_witness :
    (1 : Nat) = 1 ∧
      SpecShortestPathLen ⟨[[".", "."]], ⟨0, 0⟩, ⟨1, 0⟩⟩ 1 :=
  claim1_bfs_astar_agree_and_shortest ⟨[[".", "."]], ⟨0, 0⟩, ⟨1, 0⟩⟩
    (by decide) (by decide) 1 1 (by decide) (by decide)

/-- C2 counterexample: on the grid "# ." with p = (0,0) (a blocked tile)
and q = (1,0) (passable), searching from p to q returns 1, while searching
from q to p raises NoPossiblePath: the search outcome is not symmetric for
all in-bounds coordinate pairs. -/
theorem claim2_counterexample :
    pathfind "# ." ⟨0, 0⟩ ⟨1, 0⟩ = PathfindResult.steps 1 ∧
      pathfind "# ." ⟨1, 0⟩ ⟨0, 0⟩ = PathfindResult.noPossiblePath :=
  ⟨by decide, by decide⟩

/-- C2 amended: for in-bounds endpoints that are both passable, the search
outcome is symmetric: pathfind(array, p, q) = pathfind(array, q, p). -/
theorem claim2_amended_symmetry (array : String) (p q : Coord) (m : Map)
    (hok : mkMap array p q = Except.ok m)
    (hp : m.is_passable p = true) (hq : m.is_passable q = true) :
    pathfind array p q = pathfind array q p := by
  obtain ⟨hvp, hvq, hm⟩ := (mkMap_ok_iff array p q m).1 hok
  subst hm
  have harr : (⟨parseMap array, p, q⟩ : Map).array =
      (⟨parseMap array, q, p⟩ : Map).array := rfl
  have hvp' : (⟨parseMap array, q, p⟩ : Map).validate_coord p = [] := by
    rw [← validate_congr harr p]
    exact hvp
  have hvq' : (⟨parseMap array, q, p⟩ : Map).validate_coord q = [] := by
    rw [← validate_congr harr q]
    exact hvq
  have hok2 : mkMap array q p = Except.ok ⟨parseMap array, q, p⟩ :=
    (mkMap_ok_iff array q p _).2 ⟨hvq', hvp', rfl⟩
  have hp2 : (⟨parseMap array, q, p⟩ : Map).is_passable p = true := by
    rw [← is_passable_congr harr p]
    exact hp
  have hq2 : (⟨parseMap array, q, p⟩ : Map).is_passable q = true := by
    rw [← is_passable_congr harr q]
    exact hq
  unfold pathfind
  rcases astar_total ⟨parseMap array, p, q⟩ with ⟨n, hn⟩ | hn
  · have hs1 := astar_found_shortest hn
    have hs2 := spec_shortest_swap hp hq hs1
    have hastar2 : (⟨parseMap array, q, p⟩ : Map).get_shortest_path_astar =
        SearchResult.found n := by
      rcases astar_total ⟨parseMap array, q, p⟩ with ⟨n', hn'⟩ | hn'
      · have hs' := astar_found_shortest hn'
        have heq : n' = n := specShortest_unique hs' hs2
        rw [heq] at hn'
        exact hn'
      · exact absurd hs2.1 (astar_noPath_unreachable hn' n)
    simp only [hok, hok2, hn, hastar2]
  · have hastar2 : (⟨parseMap array, q, p⟩ : Map).get_shortest_path_astar =
        SearchResult.noPath := by
      rcases astar_total ⟨parseMap array, q, p⟩ with ⟨n', hn'⟩ | hn'
      · exfalso
        have hs' := astar_found_shortest hn'
        have hswap := spec_shortest_swap hq2 hp2 hs'
        exact astar_noPath_unreachable hn n' hswap.1
      · exact hn'
    simp only [hok, hok2, hn, hastar2]

/-- Witness for the amended C2 on a concrete grid with two passable
endpoints. -/
theorem claim2_witness :
    pathfind ". ." ⟨0, 0⟩ ⟨1, 0⟩ = pathfind ". ." ⟨1, 0⟩ ⟨0, 0⟩ :=
  claim2_amended_symmetry ". ." ⟨0, 0⟩ ⟨1, 0⟩
    ⟨parseMap ". .", ⟨0, 0⟩, ⟨1, 0⟩⟩ (by decide) (by decide) (by decide)

/-- C3: construction fails with OutOfBounds exactly when p or q violates a
bounds rule; each of the four rules contributes its message to the
collected list independently of the others, so all violated rules are
reported together; on the 5-row scenario grid, Coord(-1,10) is reported
with both its x violation and its y violation. -/
theorem claim3_bounds_errors :
    (∀ (array : String) (p q : Coord),
      (∃ e, mkMap array p q = Except.error e) ↔
        (violatesBounds ⟨parseMap array, p, q⟩ p ∨
         violatesBounds ⟨parseMap array, p, q⟩ q)) ∧
    (∀ (m : Map) (c : Coord),
      (BoundsError.xNeg ∈ m.validate_coord c ↔ c.x < 0) ∧
      (BoundsError.yNeg ∈ m.validate_coord c ↔ c.y < 0) ∧
      (BoundsError.yMax ((m.y_extent : Int) - 1) ∈ m.validate_coord c ↔
        (m.y_extent : Int) ≤ c.y) ∧
      (BoundsError.xRange c.y (m.array.getD c.y.toNat []).length ∈
          m.validate_coord c ↔
        (0 ≤ c.y ∧ c.y < (m.y_extent : Int) ∧
          ((m.array.getD c.y.toNat []).length : Int) ≤ c.x))) ∧
    mkMap ". P . . .\n. # # # .\n. . . . .\n. . Q . .\n. . . . ."
      ⟨-1, 10⟩ ⟨10, -1⟩ =
      Except.error [BoundsError.xNeg, BoundsError.yMax 4] := by
  refine ⟨?_, ?_, by decide⟩
  · intro array p q
    rw [mkMap_error_iff,
      ← validate_ne_nil_iff ⟨parseMap array, p, q⟩ p,
      ← validate_ne_nil_iff ⟨parseMap array, p, q⟩ q]
    tauto
  · intro m c
    refine ⟨?_, ?_, ?_, ?_⟩ <;>
      (unfold Map.validate_coord; split_ifs <;> simp_all)

/-- C4 counterexample: on the grid "# ." with p = (0,0) and q = (1,0), the
goal is fully enclosed by blocked tiles (it has no passable neighbour),
yet both searches succeed with 1 rather than failing with NoPossiblePath,
because the blocked start cell is adjacent to the goal and the start's own
passability is never consulted. -/
theorem claim4_counterexample :
    (⟨[["#", "."]], ⟨0, 0⟩, ⟨1, 0⟩⟩ : Map).get_neighbours ⟨1, 0⟩ = [] ∧
      (⟨[["#", "."]], ⟨0, 0⟩, ⟨1, 0⟩⟩ : Map).get_shortest_path =
        SearchResult.found 1 ∧
      (⟨[["#", "."]], ⟨0, 0⟩, ⟨1, 0⟩⟩ : Map).get_shortest_path_astar =
        SearchResult.found 1 :=
  ⟨by decide, by decide, by decide⟩

/-- C4 amended: exhausting the queue or frontier is the only way the
searches fail, and they fail with NoPossiblePath; in particular, when the
goal has no passable adjacent cell, the start differs from the goal and is
not adjacent to it, both searches fail with NoPossiblePath. -/
theorem claim4_amended_enclosed (m : Map)
    (_hp : m.validate_coord m.p = []) (_hq : m.validate_coord m.q = [])
    (henc : m.get_neighbours m.q = []) (hne : m.p ≠ m.q)
    (hadj : m.q ∉ candidateNeighbours m.p) :
    m.get_shortest_path = SearchResult.noPath ∧
      m.get_shortest_path_astar = SearchResult.noPath := by
  have hunreach : ∀ k, ¬ Reaches m m.p m.q k := by
    intro k hk
    cases k with
    | zero => exact hne (reaches_zero hk)
    | succ j =>
      obtain ⟨d, hd, hqd⟩ := reaches_succ_inv hk
      cases j with
      | zero =>
        have hdp : m.p = d := reaches_zero hd
        apply hadj
        rw [hdp]
        exact ((mem_neighbours m d m.q).1 hqd).1
      | succ i =>
        have hdpass : m.is_passable d = true := reaches_target_passable hd
        have hdc : m.q ∈ candidateNeighbours d :=
          ((mem_neighbours m d m.q).1 hqd).1
        have hmemq : d ∈ m.get_neighbours m.q :=
          (mem_neighbours m m.q d).2 ⟨(candidates_symm d m.q).1 hdc, hdpass⟩
        rw [henc] at hmemq
        exact absurd hmemq (List.not_mem_nil d)
  constructor
  · rcases bfs_total m with ⟨n, hn⟩ | hn
    · exact absurd (bfs_found_shortest hn).1 (hunreach n)
    · exact hn
  · rcases astar_total m with ⟨n, hn⟩ | hn
    · exact absurd (astar_found_shortest hn).1 (hunreach n)
    · exact hn

/-- Witness for the amended C4 on a concrete 2x2 grid whose goal (1,1) is
walled in and whose start (0,0) is not adjacent to it. -/
theorem claim4_witness :
    (⟨[[".", "#"], ["#", "#"]], ⟨0, 0⟩, ⟨1, 1⟩⟩ : Map).get_shortest_path =
        SearchResult.noPath ∧
      (⟨[[".", "#"], ["#", "#"]], ⟨0, 0⟩,
          ⟨1, 1⟩⟩ : Map).get_shortest_path_astar = SearchResult.noPath :=
  claim4_amended_enclosed ⟨[[".", "#"], ["#", "#"]], ⟨0, 0⟩, ⟨1, 1⟩⟩
    (by decide) (by decide) (by decide) (by decide) (by decide)

/-- C5: on every successfully constructed grid with p = q, both searches
return 0, irrespective of reachability or passability of p. -/
theorem claim5_coincident_zero (m : Map)
    (_hp : m.validate_coord m.p = []) (_hq : m.validate_coord m.q = [])
    (hpq : m.p = m.q) :
    m.get_shortest_path = SearchResult.found 0 ∧
      m.get_shortest_path_astar = SearchResult.found 0 := by
  constructor
  · unfold Map.get_shortest_path
    rw [if_pos hpq]
  · unfold Map.get_shortest_path_astar
    obtain ⟨g, hg⟩ : ∃ g, m.astarFuel = g + 1 :=
      ⟨5 * m.totalCells + 9, by unfold Map.astarFuel; omega⟩
    rw [hg]
    have hinit : pqAdd [] m.p 0 = [(m.p, 0)] := by simp [pqAdd]
    rw [hinit]
    have hpop : pqPop [(m.p, 0)] = some ((m.p, 0), []) := by simp [pqPop]
    simp only [astarAux, hpop]
    rw [if_neg (List.not_mem_nil m.p), if_pos hpq]
    have hd : m.dist0 m.p = some 0 := by
      unfold Map.dist0
      simp
    simp [hd]

/-- Witness for C5 on a concrete one-cell grid with coincident p and q. -/
theorem claim5_witness :
    (⟨[["."]], ⟨0, 0⟩, ⟨0, 0⟩⟩ : Map).get_shortest_path =
        SearchResult.found 0 ∧
      (⟨[["."]], ⟨0, 0⟩, ⟨0, 0⟩⟩ : Map).get_shortest_path_astar =
        SearchResult.found 0 :=
  claim5_coincident_zero ⟨[["."]], ⟨0, 0⟩, ⟨0, 0⟩⟩ (by decide) (by decide)
    rfl

/-- C6: the neighbours of c are exactly the coordinates among (x-1,y),
(x+1,y), (x,y-1), (x,y+1), in that order, that are passable; passable
means in bounds of the specific row and tile differing from the blocked
marker; a coordinate failing validation is never produced as a neighbour
(the bounds failure is swallowed, not propagated). -/
theorem claim6_neighbours (m : Map) (c : Coord) :
    m.get_neighbours c =
      ([⟨c.x - 1, c.y⟩, ⟨c.x + 1, c.y⟩, ⟨c.x, c.y - 1⟩, ⟨c.x, c.y + 1⟩] :
        List Coord).filter (fun d => m.is_passable d) ∧
    (∀ d, d ∈ m.get_neighbours c ↔
      (d ∈ candidateNeighbours c ∧ m.validate_coord d = [] ∧
        m.tileAt d ≠ "#")) ∧
    (∀ d, m.is_passable d = true ↔
      (0 ≤ d.x ∧ 0 ≤ d.y ∧ d.y < (m.y_extent : Int) ∧
        d.x < ((m.array.getD d.y.toNat []).length : Int) ∧
        m.tileAt d ≠ "#")) ∧
    (∀ d, m.validate_coord d ≠ [] → d ∉ m.get_neighbours c) := by
  refine ⟨rfl, ?_, ?_, ?_⟩
  · intro d
    rw [mem_neighbours, is_passable_iff]
  · intro d
    rw [is_passable_iff, validate_nil_iff]
    tauto
  · intro d hbad hmem
    exact hbad ((is_passable_iff m d).1 (neighbours_passable m hmem)).1

/-- C7: on every grid with in-bounds p and q both searches terminate: the
fuelled loops never exhaust the chosen fuel, and any larger fuel yields
the same result, so the unbounded Python loops stop after finitely many
iterations, also when the goal is unreachable. -/
theorem claim7_termination (m : Map)
    (_hp : m.validate_coord m.p = []) (_hq : m.validate_coord m.q = []) :
    m.get_shortest_path ≠ SearchResult.outOfFuel ∧
      m.get_shortest_path_astar ≠ SearchResult.outOfFuel ∧
      (∀ fuel, m.bfsFuel ≤ fuel →
        (if m.p = m.q then SearchResult.found 0
         else bfsAux m fuel [(m.p, 0)] [m.p]) = m.get_shortest_path) ∧
      (∀ fuel, m.astarFuel ≤ fuel →
        astarAux m fuel (pqAdd [] m.p 0) m.dist0 [] =
          m.get_shortest_path_astar) := by
  refine ⟨bfs_ne_fuelOut m, astar_ne_fuelOut m, ?_, ?_⟩
  · intro fuel hle
    unfold Map.get_shortest_path
    by_cases hpq : m.p = m.q
    · rw [if_pos hpq, if_pos hpq]
    · rw [if_neg hpq, if_neg hpq]
      apply bfsAux_fuel_mono
      · have hfo := bfs_ne_fuelOut m
        unfold Map.get_shortest_path at hfo
        rw [if_neg hpq] at hfo
        exact hfo
      · exact hle
  · intro fuel hle
    unfold Map.get_shortest_path_astar
    apply astarAux_fuel_mono
    · exact astar_ne_fuelOut m
    · exact hle

/-- Witness for C7 on a concrete one-cell grid. -/
theorem claim7_witness :
    (⟨[["."]], ⟨0, 0⟩, ⟨0, 0⟩⟩ : Map).get_shortest_path ≠
        SearchResult.outOfFuel ∧
      (⟨[["."]], ⟨0, 0⟩, ⟨0, 0⟩⟩ : Map).get_shortest_path_astar ≠
        SearchResult.outOfFuel :=
  ⟨(claim7_termination ⟨[["."]], ⟨0, 0⟩, ⟨0, 0⟩⟩ (by decide)
      (by decide)).1,
   (claim7_termination ⟨[["."]], ⟨0, 0⟩, ⟨0, 0⟩⟩ (by decide)
      (by decide)).2.1⟩

/-- C8: on the literal 5x5 scenario grid the entry point returns 6 for
p = (1,0), q = (2,3), and 6 again for the reversed pair. -/
theorem claim8_scenario :
    pathfind ". P . . .\n. # # # .\n. . . . .\n. . Q . .\n. . . . ."
        ⟨1, 0⟩ ⟨2, 3⟩ = PathfindResult.steps 6 ∧
      pathfind ". P . . .\n. # # # .\n. . . . .\n. . Q . .\n. . . . ."
        ⟨2, 3⟩ ⟨1, 0⟩ = PathfindResult.steps 6 :=
  ⟨by decide, by decide⟩

/-- C9: the A-star search never fails a distance dictionary lookup: every
popped coordinate has a distance entry when distance[node] is read, both
at the q test and when computing successor priorities, on every grid. -/
theorem claim9_astar_distance_lookup_safe (m : Map) :
    m.get_shortest_path_astar ≠ SearchResult.keyErr :=
  astar_ne_keyErr m

/-- C10: construction succeeds exactly when both supplied coordinates pass
the (purely arithmetical, tile-free) bounds rules; in particular it
succeeds when the tile at p or q is the blocked marker, and the blocked
endpoint surfaces only through the search outcome: a blocked goal yields
NoPossiblePath from the search and a blocked start still searches. -/
theorem claim10_construction_ignores_tiles :
    (∀ (array : String) (p q : Coord),
      (∃ m, mkMap array p q = Except.ok m) ↔
        (¬ violatesBounds ⟨parseMap array, p, q⟩ p ∧
         ¬ violatesBounds ⟨parseMap array, p, q⟩ q)) ∧
    (∃ m, mkMap ". #" ⟨0, 0⟩ ⟨1, 0⟩ = Except.ok m) ∧
    pathfind ". #" ⟨0, 0⟩ ⟨1, 0⟩ = PathfindResult.noPossiblePath ∧
    (∃ m, mkMap "# ." ⟨0, 0⟩ ⟨1, 0⟩ = Except.ok m) ∧
    pathfind "# ." ⟨0, 0⟩ ⟨1, 0⟩ = PathfindResult.steps 1 := by
  refine ⟨?_, ⟨⟨parseMap ". #", ⟨0, 0⟩, ⟨1, 0⟩⟩, by decide⟩, by decide,
    ⟨⟨parseMap "# .", ⟨0, 0⟩, ⟨1, 0⟩⟩, by decide⟩, by decide⟩
  intro array p q
  constructor
  · rintro ⟨m, hm⟩
    obtain ⟨h1, h2, _⟩ := (mkMap_ok_iff array p q m).1 hm
    rw [← validate_ne_nil_iff ⟨parseMap array, p, q⟩ p,
      ← validate_ne_nil_iff ⟨parseMap array, p, q⟩ q]
    exact ⟨fun hc => hc h1, fun hc => hc h2⟩
  · rintro ⟨hnp, hnq⟩
    rw [← validate_ne_nil_iff ⟨parseMap array, p, q⟩ p] at hnp
    rw [← validate_ne_nil_iff ⟨parseMap array, p, q⟩ q] at hnq
    refine ⟨⟨parseMap array, p, q⟩,
      (mkMap_ok_iff array p q _).2 ⟨?_, ?_, rfl⟩⟩
    · by_contra h
      exact hnp h
    · by_contra h
      exact hnq h

end Oxbury
